import Mathlib

/-!
Verification development for the PABLO language core:
a shallow embedding of the graph model, the .pgraph codec, the tokenizer,
the sentence segmenter and the morphology annotation helper, with theorems
checking the natural-language specification against the code.

Machine integers are modelled as `Nat` with explicit masks where the source
masks; byte buffers are `List Nat`; fallible operations return `Option` or
`Except`.  Loops are modelled by fuelled structural recursion, always called
with enough fuel (each source loop has an explicit strictly-decreasing bound).
Unicode character predicates (`isupper`, `isalpha`, `isdigit`, `\s`) are
modelled at the ASCII level of Lean's `Char` predicates.
-/

namespace Pablo

/-! ## Graph core data shapes (graph_builder.py) -/

/-- Node record (graph_builder.py, dataclass Node). -/
structure Node where
  node_id : Nat
  n_type : Nat
  sub_type : Nat
  features_ref : Nat
  span : Nat × Nat
  flags : Nat
  confidence : Nat
  label_id : Nat
deriving DecidableEq

/-- Edge record (graph_builder.py, dataclass Edge). -/
structure Edge where
  src_id : Nat
  dst_id : Nat
  e_type : Nat
  weight : Nat
  time : Nat
  flags : Nat
  confidence : Nat
  attr_ref : Nat
deriving DecidableEq

/-- Graph record (graph_builder.py, dataclass Graph).
`g_features` is the optional thumbnail (`Optional[bytes]` in the source). -/
structure Graph where
  graph_id : Nat
  graph_type : Nat
  num_nodes : Nat
  num_edges : Nat
  g_features : Option (List Nat)
  source_id : Nat
  version : Nat
  schema_id : Nat
  nodes : List Node
  edges : List Edge
deriving DecidableEq

/-- Node flag bit NF_IS_STOP (graph_builder.py). -/
def NF_IS_STOP : Nat := 1 <<< 1

/-! ## Varint utilities (graph_builder.py `_uvarint_encode` / `_uvarint_decode`)

The encoder loop strictly decreases `value` (by `>>> 7`), so fuel `value + 1`
always suffices; the decoder is structural on the buffer. -/

def _uvarint_encode_go : Nat → Nat → List Nat
  | 0, value => [value &&& 0x7F]
  | fuel + 1, value =>
      let b := value &&& 0x7F
      let value2 := value >>> 7
      if value2 ≠ 0 then (b ||| 0x80) :: _uvarint_encode_go fuel value2 else [b]

/-- Unsigned base-128 varint encoding (`Nat` argument: the source raises on
negative input, which `Nat` rules out by type). -/
def _uvarint_encode (value : Nat) : List Nat :=
  _uvarint_encode_go (value + 1) value

/-- Decoder loop: `shift`/`value` state, consuming the buffer from the front.
Mirrors the source: after a continuation byte, `shift + 7 > 63` is rejected. -/
def _uvarint_decode_go : Nat → Nat → List Nat → Option (Nat × List Nat)
  | _, _, [] => none
  | shift, value, b :: rest =>
      let value2 := value ||| ((b &&& 0x7F) <<< shift)
      if b &&& 0x80 = 0 then some (value2, rest)
      else if shift + 7 > 63 then none
      else _uvarint_decode_go (shift + 7) value2 rest

/-- `_uvarint_decode(buf, offset)` of the source, with the already-consumed
prefix dropped: returns the value and the remaining bytes. -/
def _uvarint_decode (buf : List Nat) : Option (Nat × List Nat) :=
  _uvarint_decode_go 0 0 buf

/-! ## .pgraph codec (graph_builder.py `encode_pgraph` / `decode_pgraph`) -/

def _PG_MAGIC : List Nat := [80, 71, 82, 65]

/-- `(x & 0xFFFF).to_bytes(2, "little")`. -/
def u16le (flags : Nat) : List Nat :=
  let m := flags &&& 0xFFFF
  [m % 256, m / 256]

/-- `int.from_bytes(bs, "little")`. -/
def from_bytes_le : List Nat → Nat
  | [] => 0
  | b :: rest => b + 256 * from_bytes_le rest

/-- One node record of the node table (encode_pgraph). -/
def encode_node (n : Node) : List Nat :=
  _uvarint_encode n.node_id ++
  [n.n_type &&& 0xFF, n.sub_type &&& 0xFF] ++
  _uvarint_encode n.features_ref ++
  _uvarint_encode n.span.1 ++
  _uvarint_encode n.span.2 ++
  u16le n.flags ++
  [n.confidence &&& 0xFF] ++
  _uvarint_encode n.label_id

/-- One edge record of the edge table (encode_pgraph). -/
def encode_edge (e : Edge) : List Nat :=
  _uvarint_encode e.src_id ++
  _uvarint_encode e.dst_id ++
  [e.e_type &&& 0xFF, e.weight &&& 0xFF] ++
  _uvarint_encode e.time ++
  u16le e.flags ++
  [e.confidence &&& 0xFF] ++
  _uvarint_encode e.attr_ref

/-- `encode_pgraph`: magic, header, node table, edge table, thumbnail adjunct.
`g.g_features or b""` maps `none` and `some []` alike to the empty byte string. -/
def encode_pgraph (g : Graph) : List Nat :=
  _PG_MAGIC ++
  _uvarint_encode g.graph_id ++
  [g.graph_type &&& 0xFF] ++
  _uvarint_encode g.num_nodes ++
  _uvarint_encode g.num_edges ++
  _uvarint_encode g.source_id ++
  _uvarint_encode g.version ++
  [g.schema_id &&& 0xFF] ++
  (g.nodes.map encode_node).flatten ++
  (g.edges.map encode_edge).flatten ++
  (let feat := g.g_features.getD []
   _uvarint_encode feat.length ++ feat)

/-- `buf[i]; i += 1`: a Python byte index raises `IndexError` past the end. -/
def readByte : List Nat → Option (Nat × List Nat)
  | [] => none
  | b :: rest => some (b, rest)

/-- Node-record reader of `decode_pgraph`.  The 2-byte flags field is read by
slicing (`buf[i:i+2]`), which in Python silently yields a short slice at the
end of the buffer; the offset still advances by 2. -/
def decode_node (b0 : List Nat) : Option (Node × List Nat) :=
  (_uvarint_decode b0).bind fun p1 =>
  (readByte p1.2).bind fun p2 =>
  (readByte p2.2).bind fun p3 =>
  (_uvarint_decode p3.2).bind fun p4 =>
  (_uvarint_decode p4.2).bind fun p5 =>
  (_uvarint_decode p5.2).bind fun p6 =>
  let flags := from_bytes_le (p6.2.take 2)
  (readByte (p6.2.drop 2)).bind fun p8 =>
  (_uvarint_decode p8.2).bind fun p9 =>
  some (⟨p1.1, p2.1, p3.1, p4.1, (p5.1, p6.1), flags, p8.1, p9.1⟩, p9.2)

/-- Edge-record reader of `decode_pgraph` (same slicing semantics for flags). -/
def decode_edge (b0 : List Nat) : Option (Edge × List Nat) :=
  (_uvarint_decode b0).bind fun p1 =>
  (_uvarint_decode p1.2).bind fun p2 =>
  (readByte p2.2).bind fun p3 =>
  (readByte p3.2).bind fun p4 =>
  (_uvarint_decode p4.2).bind fun p5 =>
  let flags := from_bytes_le (p5.2.take 2)
  (readByte (p5.2.drop 2)).bind fun p7 =>
  (_uvarint_decode p7.2).bind fun p8 =>
  some (⟨p1.1, p2.1, p3.1, p4.1, p5.1, flags, p7.1, p8.1⟩, p8.2)

/-- `for _ in range(num_nodes)` of `decode_pgraph`. -/
def decode_nodes : Nat → List Nat → Option (List Node × List Nat)
  | 0, buf => some ([], buf)
  | k + 1, buf =>
    (decode_node buf).bind fun p =>
    (decode_nodes k p.2).bind fun q =>
    some (p.1 :: q.1, q.2)

/-- `for _ in range(num_edges)` of `decode_pgraph`. -/
def decode_edges : Nat → List Nat → Option (List Edge × List Nat)
  | 0, buf => some ([], buf)
  | k + 1, buf =>
    (decode_edge buf).bind fun p =>
    (decode_edges k p.2).bind fun q =>
    some (p.1 :: q.1, q.2)

/-- `decode_pgraph`: any raised exception (ValueError from magic / varint /
truncated thumbnail, IndexError from a single-byte read) is `none`. -/
def decode_pgraph (buf : List Nat) : Option Graph :=
  if buf.take 4 ≠ _PG_MAGIC then none
  else
    (_uvarint_decode (buf.drop 4)).bind fun gid =>
    (readByte gid.2).bind fun gty =>
    (_uvarint_decode gty.2).bind fun nn =>
    (_uvarint_decode nn.2).bind fun ne =>
    (_uvarint_decode ne.2).bind fun src =>
    (_uvarint_decode src.2).bind fun ver =>
    (readByte ver.2).bind fun sch =>
    (decode_nodes nn.1 sch.2).bind fun nds =>
    (decode_edges ne.1 nds.2).bind fun eds =>
    (_uvarint_decode eds.2).bind fun fl =>
    if fl.1 ≠ 0 then
      let g_features := fl.2.take fl.1
      if g_features.length ≠ fl.1 then none
      else some ⟨gid.1, gty.1, nds.1.length, eds.1.length, some g_features,
                 src.1, ver.1, sch.1, nds.1, eds.1⟩
    else some ⟨gid.1, gty.1, nds.1.length, eds.1.length, none,
               src.1, ver.1, sch.1, nds.1, eds.1⟩

/-! ## Spec-side decoder for the error-handling claim

`decode_pgraph_spec` follows the spec's error discipline (section 7): every
read — fixed-width (magic, single bytes, 2-byte little-endian flag fields) or
variable-length (varints, thumbnail bytes) — fails at the moment it would run
past the end of the buffer (`MalformedInput`); magic mismatch and oversized
varints also fail.  It is otherwise the same record layout as the source. -/

/-- A 2-byte little-endian read that fails when fewer than 2 bytes remain. -/
def readU16_spec : List Nat → Option (Nat × List Nat)
  | b0 :: b1 :: rest => some (from_bytes_le [b0, b1], rest)
  | _ => none

/-- Node record reader with strict out-of-bounds failure on the flags field. -/
def decode_node_spec (b0 : List Nat) : Option (Node × List Nat) :=
  (_uvarint_decode b0).bind fun p1 =>
  (readByte p1.2).bind fun p2 =>
  (readByte p2.2).bind fun p3 =>
  (_uvarint_decode p3.2).bind fun p4 =>
  (_uvarint_decode p4.2).bind fun p5 =>
  (_uvarint_decode p5.2).bind fun p6 =>
  (readU16_spec p6.2).bind fun p7 =>
  (readByte p7.2).bind fun p8 =>
  (_uvarint_decode p8.2).bind fun p9 =>
  some (⟨p1.1, p2.1, p3.1, p4.1, (p5.1, p6.1), p7.1, p8.1, p9.1⟩, p9.2)

/-- Edge record reader with strict out-of-bounds failure on the flags field. -/
def decode_edge_spec (b0 : List Nat) : Option (Edge × List Nat) :=
  (_uvarint_decode b0).bind fun p1 =>
  (_uvarint_decode p1.2).bind fun p2 =>
  (readByte p2.2).bind fun p3 =>
  (readByte p3.2).bind fun p4 =>
  (_uvarint_decode p4.2).bind fun p5 =>
  (readU16_spec p5.2).bind fun p6 =>
  (readByte p6.2).bind fun p7 =>
  (_uvarint_decode p7.2).bind fun p8 =>
  some (⟨p1.1, p2.1, p3.1, p4.1, p5.1, p6.1, p7.1, p8.1⟩, p8.2)

def decode_nodes_spec : Nat → List Nat → Option (List Node × List Nat)
  | 0, buf => some ([], buf)
  | k + 1, buf =>
    (decode_node_spec buf).bind fun p =>
    (decode_nodes_spec k p.2).bind fun q =>
    some (p.1 :: q.1, q.2)

def decode_edges_spec : Nat → List Nat → Option (List Edge × List Nat)
  | 0, buf => some ([], buf)
  | k + 1, buf =>
    (decode_edge_spec buf).bind fun p =>
    (decode_edges_spec k p.2).bind fun q =>
    some (p.1 :: q.1, q.2)

/-- Modelled from the spec: the decode contract of sections 4.5 and 7 — same
wire layout as `decode_pgraph`, but every read that would run past the end of
the buffer fails immediately, and a failure yields no Graph at all. -/
def decode_pgraph_spec (buf : List Nat) : Option Graph :=
  if buf.length < 4 then none
  else if buf.take 4 ≠ _PG_MAGIC then none
  else
    (_uvarint_decode (buf.drop 4)).bind fun gid =>
    (readByte gid.2).bind fun gty =>
    (_uvarint_decode gty.2).bind fun nn =>
    (_uvarint_decode nn.2).bind fun ne =>
    (_uvarint_decode ne.2).bind fun src =>
    (_uvarint_decode src.2).bind fun ver =>
    (readByte ver.2).bind fun sch =>
    (decode_nodes_spec nn.1 sch.2).bind fun nds =>
    (decode_edges_spec ne.1 nds.2).bind fun eds =>
    (_uvarint_decode eds.2).bind fun fl =>
    if fl.1 ≠ 0 then
      if fl.2.length < fl.1 then none
      else some ⟨gid.1, gty.1, nds.1.length, eds.1.length,
                 some (fl.2.take fl.1), src.1, ver.1, sch.1, nds.1, eds.1⟩
    else some ⟨gid.1, gty.1, nds.1.length, eds.1.length, none,
               src.1, ver.1, sch.1, nds.1, eds.1⟩

/-! ## GraphBuilder (graph_builder.py) -/

/-- Builder state: the `__slots__` fields of `GraphBuilder`. -/
structure GraphBuilder where
  _graph_id : Nat
  _schema_id : Nat
  _graph_type : Nat
  _source_id : Nat
  _version : Nat
  _features : Option (List Nat)
  _nodes : List Node
  _edges : List Edge
deriving DecidableEq

/-- `set_thumbnail`: raises ValueError unless the argument is None or has
length 64 or 128; the store happens only after the check, so the builder is
unchanged on failure (modelled by returning only the error). -/
def GraphBuilder.set_thumbnail (gb : GraphBuilder) (features : Option (List Nat)) :
    Except String GraphBuilder :=
  match features with
  | some f =>
      if f.length ≠ 64 ∧ f.length ≠ 128 then
        Except.error ("g_features must be 64 or 128 bytes (int8) or None")
      else Except.ok { gb with _features := some f }
  | none => Except.ok { gb with _features := none }

/-- `finalize`: immutable snapshot with counts derived from list lengths. -/
def GraphBuilder.finalize (gb : GraphBuilder) : Graph :=
  ⟨gb._graph_id, gb._graph_type, gb._nodes.length, gb._edges.length,
   gb._features, gb._source_id, gb._version, gb._schema_id,
   gb._nodes, gb._edges⟩

/-! ## Tokenizer (tokenizer.py)

The master regex is an ordered alternation URL | EMAIL | HANDLE | ELLIPSIS |
WORD | PUNCT | WS, scanned left to right (`finditer`): at each position the
first alternative that matches wins; positions where nothing matches are
skipped.  Each alternative is modelled by a dedicated matcher returning its
match length, reproducing the greedy/backtracking behaviour of that regex. -/

/-- Token shape (tokenizer.py, dataclass Token); `endPos` is the source field
`end` (a Lean keyword). -/
structure Token where
  idx : Nat
  text : List Char
  start : Nat
  endPos : Nat
  flags : Nat
deriving DecidableEq, Inhabited

def TF_CAP : Nat := 1 <<< 0
def TF_PUNCT : Nat := 1 <<< 1
def TF_NUM : Nat := 1 <<< 2
def TF_SENT_END_STRONG : Nat := 1 <<< 3
def TF_SENT_END_WEAK : Nat := 1 <<< 4

/-- `[A-Za-z0-9]` (the regex classes are ASCII-exact). -/
def isWordChar (c : Char) : Bool := c.isAlpha || c.isDigit

/-- The internal joiners of the WORD alternative: right single quote, ASCII
apostrophe, hyphen. -/
def isWordSep (c : Char) : Bool := c == '’' || c == '\'' || c == '-'

/-- `[A-Za-z0-9._%+\-]` (email local part). -/
def isEmailLocalChar (c : Char) : Bool :=
  c.isAlpha || c.isDigit || c == '.' || c == '_' || c == '%' || c == '+' || c == '-'

/-- `[A-Za-z0-9.\-]` (email domain). -/
def isEmailDomainChar (c : Char) : Bool :=
  c.isAlpha || c.isDigit || c == '.' || c == '-'

/-- `[A-Za-z0-9_]` (handle body). -/
def isHandleChar (c : Char) : Bool := c.isAlpha || c.isDigit || c == '_'

/-- The single-punctuation character class `_PUNCT`. -/
def isPunctChar (c : Char) : Bool :=
  c == '.' || c == ',' || c == '?' || c == '!' || c == ';' || c == ':' ||
  c == '(' || c == ')' || c == '[' || c == ']' || c == '\x7b' || c == '\x7d' ||
  c == '"' || c == '“' || c == '”' || c == '‘' || c == '’' ||
  c == '—' || c == '–' || c == '-'

/-- `\s` (ASCII-level model of Python whitespace). -/
def isSpace (c : Char) : Bool := c.isWhitespace

/-- Length of the maximal run of characters satisfying `p` (greedy `X+`). -/
def maxRun (p : Char → Bool) : List Char → Nat
  | [] => 0
  | c :: rest => if p c then maxRun p rest + 1 else 0

/-- URL alternative `https?://\S+|www\.\S+`; the optional `s` backtracks, so
this is exactly a prefix test for `https://`, then `http://`, then `www.`. -/
def urlMatch (s : List Char) : Option Nat :=
  if ("https://".toList).isPrefixOf s then
    let k := maxRun (fun c => !isSpace c) (s.drop 8)
    if k = 0 then none else some (8 + k)
  else if ("http://".toList).isPrefixOf s then
    let k := maxRun (fun c => !isSpace c) (s.drop 7)
    if k = 0 then none else some (7 + k)
  else if ("www.".toList).isPrefixOf s then
    let k := maxRun (fun c => !isSpace c) (s.drop 4)
    if k = 0 then none else some (4 + k)
  else none

/-- Backtracking of the greedy email domain `+`: try the largest consumption
`k` first; succeed when the next character is `.` followed by at least two
ASCII letters (`\.[A-Za-z]{2,}` with greedy `{2,}`). -/
def emailDomainBacktrack (s2 : List Char) : Nat → Option Nat
  | 0 => none
  | k + 1 =>
      if (s2.drop (k + 1)).head? = some '.' then
        let la := maxRun Char.isAlpha (s2.drop (k + 2))
        if 2 ≤ la then some ((k + 1) + 1 + la)
        else emailDomainBacktrack s2 k
      else emailDomainBacktrack s2 k

/-- EMAIL alternative.  The local-part `+` needs no backtracking because `@`
is not in the local character class, so the maximal run is the only choice. -/
def emailMatch (s : List Char) : Option Nat :=
  let l := maxRun isEmailLocalChar s
  if l = 0 then none
  else if (s.drop l).head? = some '@' then
    let s2 := s.drop (l + 1)
    match emailDomainBacktrack s2 (maxRun isEmailDomainChar s2) with
    | none => none
    | some m => some (l + 1 + m)
  else none

/-- HANDLE alternative `[@#][A-Za-z0-9_]+`. -/
def handleMatch (s : List Char) : Option Nat :=
  match s with
  | c :: rest =>
      if c == '@' || c == '#' then
        let k := maxRun isHandleChar rest
        if k = 0 then none else some (1 + k)
      else none
  | [] => none

/-- ELLIPSIS alternative `(?:…|\.{3})`. -/
def ellipsisMatch (s : List Char) : Option Nat :=
  if s.head? = some '…' then some 1
  else if ("...".toList).isPrefixOf s then some 3
  else none

/-- The greedy star `(?:[’'\-][A-Za-z0-9]+)*` after the first alnum run; each
group consumes one joiner and a nonempty alnum run (≥ 2 characters, so fuel
`s.length` always suffices). -/
def wordExt : Nat → List Char → Nat
  | 0, _ => 0
  | fuel + 1, s =>
    match s with
    | c :: rest =>
        if isWordSep c then
          let k := maxRun isWordChar rest
          if k = 0 then 0 else (1 + k) + wordExt fuel (rest.drop k)
        else 0
    | [] => 0

/-- WORD alternative `[A-Za-z0-9]+(?:[’'\-][A-Za-z0-9]+)*`. -/
def wordMatch (s : List Char) : Option Nat :=
  let k := maxRun isWordChar s
  if k = 0 then none else some (k + wordExt s.length (s.drop k))

/-- PUNCT alternative: one character of the `_PUNCT` class. -/
def punctMatch (s : List Char) : Option Nat :=
  match s with
  | c :: _ => if isPunctChar c then some 1 else none
  | [] => none

/-- WS alternative `\s+`. -/
def wsMatch (s : List Char) : Option Nat :=
  let k := maxRun isSpace s
  if k = 0 then none else some k

/-- The named groups of the master regex (the source keeps them as strings;
the fallback token is recorded with kind WORD, as in the source). -/
inductive TKind
  | URL | EMAIL | HANDLE | ELLIPSIS | WORD | PUNCT | WS
deriving DecidableEq

/-- One attempt of the master regex at a position: alternatives in priority
order, first match wins. -/
def masterMatch (s : List Char) : Option (TKind × Nat) :=
  match urlMatch s with
  | some k => some (TKind.URL, k)
  | none =>
    match emailMatch s with
    | some k => some (TKind.EMAIL, k)
    | none =>
      match handleMatch s with
      | some k => some (TKind.HANDLE, k)
      | none =>
        match ellipsisMatch s with
        | some k => some (TKind.ELLIPSIS, k)
        | none =>
          match wordMatch s with
          | some k => some (TKind.WORD, k)
          | none =>
            match punctMatch s with
            | some k => some (TKind.PUNCT, k)
            | none =>
              match wsMatch s with
              | some k => some (TKind.WS, k)
              | none => none

def headIsUpper (piece : List Char) : Bool :=
  match piece with
  | [] => false
  | c :: _ => c.isUpper

def hasDigit (piece : List Char) : Bool := piece.any Char.isDigit

def hasAlpha (piece : List Char) : Bool := piece.any Char.isAlpha

/-- The per-token flag computation of the first pass (tokenize, lines
105–115). -/
def firstPassFlags (kind : TKind) (piece : List Char) : Nat :=
  let flags0 := 0
  let flags1 :=
    if kind = TKind.PUNCT ∨ kind = TKind.ELLIPSIS then flags0 ||| TF_PUNCT
    else flags0
  let flags2 :=
    if kind = TKind.WORD then
      let fa := if hasDigit piece then flags1 ||| TF_NUM else flags1
      if hasAlpha piece && headIsUpper piece then fa ||| TF_CAP else fa
    else flags1
  if (kind = TKind.URL ∨ kind = TKind.EMAIL ∨ kind = TKind.HANDLE) ∧ hasDigit piece
  then flags2 ||| TF_NUM else flags2

/-- The `finditer` scan of `tokenize`: `p` is the scan position, `i` the end
of the last match (of any kind, whitespace included), `idx` the running token
index.  A position with no match is skipped; whitespace advances `i` without
emitting.  Each step moves `p` forward, so fuel `chars.length + 1` suffices. -/
def scanGo (chars : List Char) :
    Nat → Nat → Nat → Nat → List Token → List TKind →
    (List Token × List TKind × Nat × Nat)
  | 0, _, i, idx, toks, kinds => (toks, kinds, i, idx)
  | fuel + 1, p, i, idx, toks, kinds =>
    if p < chars.length then
      match masterMatch (chars.drop p) with
      | none => scanGo chars fuel (p + 1) i idx toks kinds
      | some (kind, len) =>
          if kind = TKind.WS then
            scanGo chars fuel (p + len) (p + len) idx toks kinds
          else
            let piece := (chars.drop p).take len
            let t : Token := ⟨idx, piece, p, p + len, firstPassFlags kind piece⟩
            scanGo chars fuel (p + len) (p + len) (idx + 1)
              (toks ++ [t]) (kinds ++ [kind])
    else (toks, kinds, i, idx)

/-- First pass of `tokenize` including the trailing fallback token (lines
121–129): any residue after the last match becomes one token of kind WORD. -/
def tokenize1 (chars : List Char) : List Token × List TKind :=
  let r := scanGo chars (chars.length + 1) 0 0 0 [] []
  let toks := r.1
  let kinds := r.2.1
  let i := r.2.2.1
  let idx := r.2.2.2
  if i < chars.length then
    let piece := chars.drop i
    let f1 := if hasDigit piece then (0 : Nat) ||| TF_NUM else 0
    let f2 := if piece ≠ [] ∧ hasAlpha piece ∧ headIsUpper piece then f1 ||| TF_CAP else f1
    (toks ++ [⟨idx, piece, i, chars.length, f2⟩], kinds ++ [TKind.WORD])
  else (toks, kinds)

/-- `t.text in _TERMINATORS_STRONG`. -/
def isStrongTerm (text : List Char) : Bool :=
  text == ['.'] || text == ['?'] || text == ['!']

/-- `t.text in _TERMINATORS_WEAK` (ellipsis glyph or three dots). -/
def isWeakTerm (text : List Char) : Bool :=
  text == ['…'] || text == ['.', '.', '.']

/-- `tokens[j].text in _CLOSERS`. -/
def isCloser (text : List Char) : Bool :=
  text == ['"'] || text == ['”'] || text == ['’'] || text == ['\''] ||
  text == [')'] || text == [']'] || text == ['\x7d'] || text == ['»']

/-- OR a flag bit into the token at one index (`tokens[j].flags |= f`). -/
def orFlagAt : List Token → Nat → Nat → List Token
  | [], _, _ => []
  | t :: ts, 0, f => { t with flags := t.flags ||| f } :: ts
  | t :: ts, j + 1, f => t :: orFlagAt ts j f

/-- The closer bubble of the second pass (lines 139–142): weak-end flags over
immediately following closer tokens. -/
def bubbleWeak : Nat → List Token → Nat → List Token
  | 0, toks, _ => toks
  | fuel + 1, toks, j =>
    if j < toks.length ∧ isCloser ((toks.getD j default).text) then
      bubbleWeak fuel (orFlagAt toks j TF_SENT_END_WEAK) (j + 1)
    else toks

/-- Second pass of `tokenize` (lines 131–145): sentence-end cues over the
already-built sequence. -/
def sentLoop (kinds : List TKind) : Nat → Nat → List Token → List Token
  | 0, _, toks => toks
  | fuel + 1, k, toks =>
    if k < toks.length then
      let kk := kinds.getD k TKind.WS
      let toks2 :=
        if kk = TKind.PUNCT ∨ kk = TKind.ELLIPSIS then
          if isStrongTerm ((toks.getD k default).text) then
            bubbleWeak toks.length (orFlagAt toks k TF_SENT_END_STRONG) (k + 1)
          else if isWeakTerm ((toks.getD k default).text) then
            orFlagAt toks k TF_SENT_END_WEAK
          else toks
        else toks
      sentLoop kinds fuel (k + 1) toks2
    else toks

/-- `tokenize(text)`: first pass, then the sentence-end flag pass. -/
def tokenize (chars : List Char) : List Token :=
  let r := tokenize1 chars
  sentLoop r.2 r.1.length 0 r.1

/-! ## Sentence segmentation (sentences.py `segment_tokens`)

The outer `while k < n` strictly increases `k` each iteration, so fuel `n`
suffices; both inner lookahead loops strictly increase `j` below bound `n`,
so fuel `n - (k+1)` is exact for them. -/

/-- The strong-terminator extension loop (lines 44–47): extend `end` over any
immediately following weak-flagged tokens. -/
def strongExtend (toks : List Token) (n : Nat) : Nat → Nat → Nat → Nat
  | 0, _, e => e
  | fuel + 1, j, e =>
    if j < n ∧ (toks.getD j default).flags &&& TF_SENT_END_WEAK ≠ 0 then
      strongExtend toks n fuel (j + 1) j
    else e

/-- The ellipsis lookahead loop (lines 57–60): skip weak-flagged and
punctuation-flagged tokens to the next substantive token. -/
def ellipsisSkip (toks : List Token) (n : Nat) : Nat → Nat → Nat
  | 0, j => j
  | fuel + 1, j =>
    if j < n ∧ ((toks.getD j default).flags &&& TF_SENT_END_WEAK ≠ 0 ∨
                (toks.getD j default).flags &&& TF_PUNCT ≠ 0) then
      ellipsisSkip toks n fuel (j + 1)
    else j

/-- The body of `segment_tokens` (lines 36–72): the scan with current sentence
start `s` and position `k`, accumulating spans; the fuel-exhausted case equals
the `k ≥ n` exit (trailing unterminated material). -/
def segLoop (toks : List Token) (n : Nat) :
    Nat → Nat → Nat → List (Nat × Nat) → List (Nat × Nat)
  | 0, s, _, spans => if s < n then spans ++ [(s, n)] else spans
  | fuel + 1, s, k, spans =>
    if k < n then
      let t := toks.getD k default
      if t.flags &&& TF_SENT_END_STRONG ≠ 0 then
        let e := strongExtend toks n (n - (k + 1)) (k + 1) k
        segLoop toks n fuel (e + 1) (e + 1) (spans ++ [(s, e + 1)])
      else if t.flags &&& TF_SENT_END_WEAK ≠ 0 ∧ isWeakTerm t.text then
        let j := ellipsisSkip toks n (n - (k + 1)) (k + 1)
        if n ≤ j ∨ (toks.getD j default).flags &&& TF_CAP ≠ 0 then
          segLoop toks n fuel (k + 1) (k + 1) (spans ++ [(s, k + 1)])
        else segLoop toks n fuel s (k + 1) spans
      else segLoop toks n fuel s (k + 1) spans
    else if s < n then spans ++ [(s, n)] else spans

/-- `segment_tokens(tokens)`: sentence spans as half-open token-index pairs. -/
def segment_tokens (tokens : List Token) : List (Nat × Nat) :=
  let n := tokens.length
  if n = 0 then [] else segLoop tokens n n 0 0 []

/-! ## Vocabulary and graph annotation (morph.py) -/

/-- Vocab state: the `_tok2id` dict (as an association list with most recent
insertion first, matching lookup behaviour) and the `_id2tok` list. -/
structure Vocab where
  _tok2id : List (String × Nat)
  _id2tok : List String
deriving DecidableEq

/-- `Vocab.__init__`. -/
def Vocab.init : Vocab := ⟨[], []⟩

/-- Dictionary lookup (`s in self._tok2id` / `self._tok2id[s]`). -/
def dictLookup : List (String × Nat) → String → Option Nat
  | [], _ => none
  | (k, i) :: rest, s => if k = s then some i else dictLookup rest s

/-- `Vocab.get_id`: return the interned id, interning on first sight
(`idx = len(self._id2tok) + 1`; 0 is reserved for "unknown"). -/
def Vocab.get_id (v : Vocab) (s : String) : Nat × Vocab :=
  match dictLookup v._tok2id s with
  | some i => (i, v)
  | none =>
      let idx := v._id2tok.length + 1
      (idx, ⟨(s, idx) :: v._tok2id, v._id2tok ++ [s]⟩)

/-- `Vocab.get_str`. -/
def Vocab.get_str (v : Vocab) (i : Nat) : String :=
  if i = 0 ∨ v._id2tok.length < i then "" else v._id2tok.getD (i - 1) ""

/-- Morphology result (morph.py, dataclass MorphInfo); `lemmaStr` is the
source field `lemma` (a Lean keyword). -/
structure MorphInfo where
  lemmaStr : String
  lemma_id : Nat
  pos : Nat
  bits : Nat
  is_stop : Bool
deriving DecidableEq

/-- The indexed loop of `annotate_graph` over the common prefix: overwrite
`sub_type` with the POS code and `label_id` with the lemma id, and OR the
stop-word bit into `flags` when the analysis marked a stop word. -/
def annotate_go : Nat → List Node → List MorphInfo → List Node
  | 0, nodes, _ => nodes
  | _ + 1, [], _ => []
  | _ + 1, nodes, [] => nodes
  | n + 1, node :: nodes, mi :: morphs =>
      { node with
        sub_type := mi.pos,
        label_id := mi.lemma_id,
        flags := if mi.is_stop then node.flags ||| NF_IS_STOP else node.flags } ::
      annotate_go n nodes morphs

/-- `annotate_graph(g, tokens, morphs)`: in-place annotation of the first
`min(len(g.nodes), len(tokens), len(morphs))` nodes, modelled functionally. -/
def annotate_graph (g : Graph) (tokens : List Token) (morphs : List MorphInfo) :
    Graph :=
  let n := min (min g.nodes.length tokens.length) morphs.length
  { g with nodes := annotate_go n g.nodes morphs }

/-! ## Theorems: annotation frame property (C10) -/

theorem annotate_go_length (n : Nat) :
    ∀ nodes morphs, (annotate_go n nodes morphs).length = nodes.length := by
  induction n with
  | zero => intro nodes morphs; rfl
  | succ n ih =>
    intro nodes morphs
    cases nodes with
    | nil => cases morphs <;> rfl
    | cons node nodes =>
      cases morphs with
      | nil => rfl
      | cons mi morphs => simp [annotate_go, ih]

theorem annotate_go_get_ge (n : Nat) :
    ∀ nodes morphs i, n ≤ i →
      (annotate_go n nodes morphs).get? i = nodes.get? i := by
  induction n with
  | zero => intro nodes morphs i _; rfl
  | succ n ih =>
    intro nodes morphs i hi
    cases nodes with
    | nil => cases morphs <;> rfl
    | cons node nodes =>
      cases morphs with
      | nil => rfl
      | cons mi morphs =>
        cases i with
        | zero => omega
        | succ i =>
          show (annotate_go (n + 1) (node :: nodes) (mi :: morphs)).get? (i + 1) = _
          simp only [annotate_go, List.get?]
          exact ih nodes morphs i (by omega)

theorem annotate_go_get_lt (n : Nat) :
    ∀ nodes morphs i node mi, i < n →
      nodes.get? i = some node → morphs.get? i = some mi →
      (annotate_go n nodes morphs).get? i =
        some { node with
               sub_type := mi.pos, label_id := mi.lemma_id,
               flags := if mi.is_stop then node.flags ||| NF_IS_STOP
                        else node.flags } := by
  induction n with
  | zero => intro nodes morphs i node mi h; omega
  | succ n ih =>
    intro nodes morphs i node mi hi hn hm
    cases nodes with
    | nil => simp [List.get?] at hn
    | cons node0 nodes =>
      cases morphs with
      | nil => simp [List.get?] at hm
      | cons mi0 morphs =>
        cases i with
        | zero =>
          simp only [List.get?] at hn hm
          cases hn; cases hm
          rfl
        | succ i =>
          simp only [List.get?] at hn hm
          show (annotate_go (n + 1) (node0 :: nodes) (mi0 :: morphs)).get? (i + 1) = _
          simp only [annotate_go, List.get?]
          exact ih nodes morphs i node mi (by omega) hn hm

/-- C10: `annotate_graph(g, tokens, morphs)` modifies only the first
`min(len(g.nodes), len(tokens), len(morphs))` nodes, and on each such node
changes only `sub_type` (POS code), `label_id` (lemma id) and the stop-word
bit of `flags`; all other node fields, all later nodes, all edges and all
graph header fields are unchanged, and a length mismatch among the three
inputs is handled totally (no error). -/
theorem annotate_graph_frame (g : Graph) (tokens : List Token)
    (morphs : List MorphInfo) :
    (annotate_graph g tokens morphs).graph_id = g.graph_id ∧
    (annotate_graph g tokens morphs).graph_type = g.graph_type ∧
    (annotate_graph g tokens morphs).num_nodes = g.num_nodes ∧
    (annotate_graph g tokens morphs).num_edges = g.num_edges ∧
    (annotate_graph g tokens morphs).g_features = g.g_features ∧
    (annotate_graph g tokens morphs).source_id = g.source_id ∧
    (annotate_graph g tokens morphs).version = g.version ∧
    (annotate_graph g tokens morphs).schema_id = g.schema_id ∧
    (annotate_graph g tokens morphs).edges = g.edges ∧
    (annotate_graph g tokens morphs).nodes.length = g.nodes.length ∧
    (∀ i, min (min g.nodes.length tokens.length) morphs.length ≤ i →
       (annotate_graph g tokens morphs).nodes.get? i = g.nodes.get? i) ∧
    (∀ i node mi, i < min (min g.nodes.length tokens.length) morphs.length →
       g.nodes.get? i = some node → morphs.get? i = some mi →
       (annotate_graph g tokens morphs).nodes.get? i =
         some { node with
                sub_type := mi.pos, label_id := mi.lemma_id,
                flags := if mi.is_stop then node.flags ||| NF_IS_STOP
                         else node.flags }) := by
  refine ⟨rfl, rfl, rfl, rfl, rfl, rfl, rfl, rfl, rfl, ?_, ?_, ?_⟩
  · exact annotate_go_length _ _ _
  · intro i hi
    exact annotate_go_get_ge _ _ _ _ hi
  · intro i node mi hi hn hm
    exact annotate_go_get_lt _ _ _ _ _ _ hi hn hm

def gWitC10 : Graph :=
  { graph_id := 7, graph_type := 5, num_nodes := 2, num_edges := 1,
    g_features := none, source_id := 3, version := 1, schema_id := 1,
    nodes := [⟨0, 1, 0, 0, (0, 1), 4, 240, 0⟩, ⟨1, 1, 0, 0, (1, 2), 0, 255, 0⟩],
    edges := [⟨0, 1, 9, 255, 0, 1, 255, 0⟩] }

def toksWitC10 : List Token := [⟨0, ['H', 'i'], 0, 2, 1⟩]

def morphsWitC10 : List MorphInfo :=
  [⟨"hi", 1, 1, 1, true⟩, ⟨"there", 2, 4, 4, false⟩]

/-- Witness for C10 at a concrete length-mismatched input (2 nodes, 1 token,
2 morphs: only node 0 is annotated, node 1 and the edges are untouched). -/
theorem annotate_graph_frame_witness :
    (annotate_graph gWitC10 toksWitC10 morphsWitC10).nodes.get? 1 =
      gWitC10.nodes.get? 1 ∧
    (annotate_graph gWitC10 toksWitC10 morphsWitC10).nodes.get? 0 =
      some ⟨0, 1, 1, 0, (0, 1), 4 ||| NF_IS_STOP, 240, 1⟩ ∧
    (annotate_graph gWitC10 toksWitC10 morphsWitC10).edges = gWitC10.edges := by
  refine ⟨?_, ?_, ?_⟩
  · exact (annotate_graph_frame gWitC10 toksWitC10 morphsWitC10).2.2.2.2.2.2.2.2.2.2.1
      1 (by decide)
  · have h := (annotate_graph_frame gWitC10 toksWitC10 morphsWitC10).2.2.2.2.2.2.2.2.2.2.2
      0 ⟨0, 1, 0, 0, (0, 1), 4, 240, 0⟩ ⟨"hi", 1, 1, 1, true⟩
      (by decide) (by decide) (by decide)
    simpa using h
  · exact (annotate_graph_frame gWitC10 toksWitC10 morphsWitC10).2.2.2.2.2.2.2.2.1

/-! ## Theorems: vocabulary interning (C9) -/

/-- The run invariant of a `Vocab`: every interned pair points back into
`_id2tok` at position `id - 1`, with `1 ≤ id ≤ len(_id2tok)`. -/
def VocabInv (v : Vocab) : Prop :=
  ∀ p ∈ v._tok2id, 1 ≤ p.2 ∧ p.2 ≤ v._id2tok.length ∧
    v._id2tok.getD (p.2 - 1) "" = p.1

instance (v : Vocab) : Decidable (VocabInv v) := by
  unfold VocabInv; infer_instance

theorem dictLookup_mem :
    ∀ (l : List (String × Nat)) (s : String) (i : Nat),
      dictLookup l s = some i → (s, i) ∈ l := by
  intro l
  induction l with
  | nil => intro s i h; simp [dictLookup] at h
  | cons p rest ih =>
    intro s i h
    obtain ⟨k, j⟩ := p
    by_cases hk : k = s
    · subst hk
      simp [dictLookup] at h
      subst h
      exact List.mem_cons_self _ _
    · simp [dictLookup, hk] at h
      exact List.mem_cons_of_mem _ (ih s i h)

/-- C9: on any vocabulary state satisfying the run invariant (which holds for
the fresh instance and is preserved by every `get_id` call), `get_id` is
idempotent (a repeat lookup of the same string returns the same id and leaves
the state unchanged), two distinct strings are never assigned the same id,
the first string interned into a fresh instance receives id 1, and id 0 is
never assigned. -/
theorem vocab_get_id_ok :
    VocabInv Vocab.init ∧
    (∀ s, (Vocab.init.get_id s).1 = 1) ∧
    ∀ v s t, VocabInv v →
      VocabInv (v.get_id s).2 ∧
      (v.get_id s).2.get_id s = v.get_id s ∧
      (s ≠ t → ((v.get_id s).2.get_id t).1 ≠ (v.get_id s).1) ∧
      (v.get_id s).1 ≠ 0 := by
  refine ⟨?_, ?_, ?_⟩
  · intro p hp; simp [Vocab.init] at hp
  · intro s; rfl
  · intro v s t hInv
    refine ⟨?_, ?_, ?_, ?_⟩
    · -- invariant preservation
      unfold Vocab.get_id
      cases hls : dictLookup v._tok2id s with
      | some i => exact hInv
      | none =>
        intro p hp
        simp only [List.mem_cons] at hp
        rcases hp with hp | hp
        · subst hp
          refine ⟨by omega, by simp, ?_⟩
          simp [List.getD_append_right, List.getD]
        · have h := hInv p hp
          refine ⟨h.1, by simp; omega, ?_⟩
          rw [List.getD_append _ _ _ _ (by omega)]
          exact h.2.2
    · -- idempotence
      unfold Vocab.get_id
      cases hls : dictLookup v._tok2id s with
      | some i => simp [hls]
      | none => simp [dictLookup]
    · -- injectivity
      intro hst
      cases hls : dictLookup v._tok2id s with
      | some i =>
        have hsmem := hInv _ (dictLookup_mem _ _ _ hls)
        have hs2 : v._id2tok.getD (i - 1) "" = s := hsmem.2.2
        have hsle : 1 ≤ i ∧ i ≤ v._id2tok.length := ⟨hsmem.1, hsmem.2.1⟩
        simp only [Vocab.get_id, hls]
        cases hlt : dictLookup v._tok2id t with
        | some j =>
          have htmem := hInv _ (dictLookup_mem _ _ _ hlt)
          have ht2 : v._id2tok.getD (j - 1) "" = t := htmem.2.2
          simp only
          intro hij
          exact hst (by rw [← hs2, ← ht2, hij])
        | none =>
          simp only
          omega
      | none =>
        simp only [Vocab.get_id, hls, dictLookup, if_neg hst]
        cases hlt : dictLookup v._tok2id t with
        | some j =>
          have htmem := hInv _ (dictLookup_mem _ _ _ hlt)
          have htle : 1 ≤ j ∧ j ≤ v._id2tok.length := ⟨htmem.1, htmem.2.1⟩
          simp only
          omega
        | none =>
          simp only [List.length_append, List.length_cons]
          omega
    · -- id 0 is never assigned
      unfold Vocab.get_id
      cases hls : dictLookup v._tok2id s with
      | some i =>
        have h := hInv _ (dictLookup_mem _ _ _ hls)
        simp only
        omega
      | none => simp

/-- Witness for C9 on a fresh vocabulary with the strings "cat" and "dog". -/
theorem vocab_get_id_ok_witness :
    ((Vocab.init.get_id ("cat")).2.get_id ("cat") = Vocab.init.get_id ("cat")) ∧
    ((Vocab.init.get_id ("cat")).2.get_id ("dog")).1 ≠
      (Vocab.init.get_id ("cat")).1 ∧
    (Vocab.init.get_id ("cat")).1 ≠ 0 := by
  have h := vocab_get_id_ok.2.2 Vocab.init ("cat") ("dog") (by decide)
  exact ⟨h.2.1, h.2.2.1 (by decide), h.2.2.2⟩

/-! ## Theorems: thumbnail length validation (C3) -/

def gbWitC3 : GraphBuilder :=
  { _graph_id := 1, _schema_id := 1, _graph_type := 5, _source_id := 0,
    _version := 1, _features := none, _nodes := [], _edges := [] }

/-- C3 counterexample: the claim says a present thumbnail of length 0 (the
empty byte string) succeeds, but `set_thumbnail` rejects every present
thumbnail whose length is not 64 or 128, including the empty one. -/
theorem set_thumbnail_len0_counterexample :
    GraphBuilder.set_thumbnail gbWitC3 (some []) =
      Except.error ("g_features must be 64 or 128 bytes (int8) or None") := by
  rfl

/-- C3 (amended): `set_thumbnail(b)` fails with the invalid-thumbnail error
iff `b` is a present byte string whose length is not in 64 or 128 — `None`,
64 and 128 succeed, while length 0 (empty bytes) and length 65 are rejected;
on success the stored thumbnail becomes `b`, and on failure no new builder
state is produced (the stored thumbnail is unchanged). -/
theorem set_thumbnail_amended :
    ∀ gb f,
      ((∃ gb', GraphBuilder.set_thumbnail gb f = Except.ok gb') ↔
        (f = none ∨ ∃ l, f = some l ∧ (l.length = 64 ∨ l.length = 128))) ∧
      (∀ gb', GraphBuilder.set_thumbnail gb f = Except.ok gb' →
        gb' = { gb with _features := f }) ∧
      (GraphBuilder.set_thumbnail gb (some (List.replicate 65 0)) =
        Except.error ("g_features must be 64 or 128 bytes (int8) or None")) ∧
      (GraphBuilder.set_thumbnail gb (some []) =
        Except.error ("g_features must be 64 or 128 bytes (int8) or None")) := by
  intro gb f
  refine ⟨?_, ?_, ?_, ?_⟩
  · constructor
    · intro ⟨gb', hgb⟩
      cases f with
      | none => exact Or.inl rfl
      | some l =>
        refine Or.inr ⟨l, rfl, ?_⟩
        by_cases h64 : l.length = 64
        · exact Or.inl h64
        · by_cases h128 : l.length = 128
          · exact Or.inr h128
          · simp [GraphBuilder.set_thumbnail, h64, h128] at hgb
    · intro h
      rcases h with h | ⟨l, hl, hlen⟩
      · subst h; exact ⟨_, rfl⟩
      · subst hl
        rcases hlen with h | h <;>
          exact ⟨{ gb with _features := some l },
                 by simp [GraphBuilder.set_thumbnail, h]⟩
  · intro gb' hgb
    cases f with
    | none =>
      simp only [GraphBuilder.set_thumbnail] at hgb
      cases hgb; rfl
    | some l =>
      simp only [GraphBuilder.set_thumbnail] at hgb
      by_cases h : l.length ≠ 64 ∧ l.length ≠ 128
      · simp [h] at hgb
      · simp [h] at hgb; cases hgb; rfl
  · simp [GraphBuilder.set_thumbnail, List.length_replicate]
  · rfl

/-- Witness for C3 (amended) at a 64-byte thumbnail on a concrete builder. -/
theorem set_thumbnail_amended_witness :
    GraphBuilder.set_thumbnail gbWitC3 (some (List.replicate 64 0)) =
      Except.ok { gbWitC3 with _features := some (List.replicate 64 0) } ∧
    { gbWitC3 with _features := some (List.replicate 64 0) } =
      { gbWitC3 with _features := some (List.replicate 64 0) } := by
  have h := (set_thumbnail_amended gbWitC3 (some (List.replicate 64 0))).2.1
    { gbWitC3 with _features := some (List.replicate 64 0) }
  exact ⟨rfl, h rfl⟩

/-! ## Theorems: sentence spans partition the token range (C4) -/

/-- `consecutiveFrom s n spans`: the spans are consecutive nonempty half-open
ranges starting at `s` and ending exactly at `n` — i.e. they exactly
partition `[s, n)` in order, with no gaps and no overlaps. -/
def consecutiveFrom (s n : Nat) : List (Nat × Nat) → Prop
  | [] => s = n
  | (a, b) :: rest => a = s ∧ s < b ∧ consecutiveFrom b n rest

theorem strongExtend_bounds (toks : List Token) (n : Nat) :
    ∀ fuel j e, e < n → e ≤ j →
      e ≤ strongExtend toks n fuel j e ∧ strongExtend toks n fuel j e < n := by
  intro fuel
  induction fuel with
  | zero => intro j e he _; exact ⟨le_refl e, he⟩
  | succ fuel ih =>
    intro j e he hej
    by_cases hg : j < n ∧ (toks.getD j default).flags &&& TF_SENT_END_WEAK ≠ 0
    · simp only [strongExtend, if_pos hg]
      have h := ih (j + 1) j hg.1 (by omega)
      exact ⟨le_trans hej h.1, h.2⟩
    · simp only [strongExtend, if_neg hg]
      exact ⟨le_refl e, he⟩

theorem segLoop_partition (toks : List Token) (n : Nat) :
    ∀ fuel s k, s ≤ k → s ≤ n → n - k ≤ fuel →
      ∃ rest, (∀ spans, segLoop toks n fuel s k spans = spans ++ rest) ∧
        consecutiveFrom s n rest := by
  intro fuel
  induction fuel with
  | zero =>
    intro s k hsk hsn hf
    by_cases hs : s < n
    · exact ⟨[(s, n)], fun spans => by simp [segLoop, hs],
        ⟨rfl, hs, rfl⟩⟩
    · refine ⟨[], fun spans => by simp [segLoop, hs], ?_⟩
      show s = n
      omega
  | succ fuel ih =>
    intro s k hsk hsn hf
    by_cases hk : k < n
    · by_cases hstrong :
        (toks.getD k default).flags &&& TF_SENT_END_STRONG ≠ 0
      · -- strong terminator: extend over weak closers, close, restart
        have hb := strongExtend_bounds toks n (n - (k + 1)) (k + 1) k hk
          (by omega)
        set e := strongExtend toks n (n - (k + 1)) (k + 1) k with hee
        obtain ⟨rest, hr, hc⟩ := ih (e + 1) (e + 1) (le_refl _)
          (by omega) (by omega)
        refine ⟨(s, e + 1) :: rest, ?_, rfl, by omega, hc⟩
        intro spans
        simp only [segLoop, if_pos hk, if_pos hstrong, ← hee]
        rw [hr (spans ++ [(s, e + 1)])]
        simp
      · by_cases hweak :
          (toks.getD k default).flags &&& TF_SENT_END_WEAK ≠ 0 ∧
            isWeakTerm (toks.getD k default).text
        · by_cases hclose :
            n ≤ ellipsisSkip toks n (n - (k + 1)) (k + 1) ∨
              (toks.getD (ellipsisSkip toks n (n - (k + 1)) (k + 1))
                default).flags &&& TF_CAP ≠ 0
          · -- ellipsis closes the sentence exactly at the ellipsis token
            obtain ⟨rest, hr, hc⟩ := ih (k + 1) (k + 1) (le_refl _)
              (by omega) (by omega)
            refine ⟨(s, k + 1) :: rest, ?_, rfl, by omega, hc⟩
            intro spans
            simp only [segLoop, if_pos hk, if_neg hstrong, if_pos hweak,
              if_pos hclose]
            rw [hr (spans ++ [(s, k + 1)])]
            simp
          · -- ellipsis does not close: continue scanning
            obtain ⟨rest, hr, hc⟩ := ih s (k + 1) (by omega) hsn (by omega)
            refine ⟨rest, ?_, hc⟩
            intro spans
            simp only [segLoop, if_pos hk, if_neg hstrong, if_pos hweak,
              if_neg hclose]
            exact hr spans
        · -- ordinary token: continue scanning
          obtain ⟨rest, hr, hc⟩ := ih s (k + 1) (by omega) hsn (by omega)
          refine ⟨rest, ?_, hc⟩
          intro spans
          simp only [segLoop, if_pos hk, if_neg hstrong, if_neg hweak]
          exact hr spans
    · by_cases hs : s < n
      · exact ⟨[(s, n)], fun spans => by simp [segLoop, hk, hs],
          ⟨rfl, hs, rfl⟩⟩
      · refine ⟨[], fun spans => by simp [segLoop, hk, hs], ?_⟩
        show s = n
        omega

/-- C4: `segment_tokens` returns an ordered list of half-open token-index
ranges that exactly partitions `[0, token_count)` — consecutive, nonempty,
non-overlapping and jointly covering — and the empty token list yields the
empty span list. -/
theorem segment_tokens_partitions :
    segment_tokens [] = [] ∧
    ∀ tokens : List Token,
      consecutiveFrom 0 tokens.length (segment_tokens tokens) := by
  refine ⟨rfl, ?_⟩
  intro toks
  unfold segment_tokens
  by_cases h : toks.length = 0
  · simp only [if_pos h]
    show (0 : Nat) = toks.length
    omega
  · simp only [if_neg h]
    obtain ⟨rest, hr, hc⟩ :=
      segLoop_partition toks toks.length toks.length 0 0 (le_refl 0)
        (by omega) (by omega)
    rw [hr []]
    simpa using hc

/-! ## Theorems: ellipsis sentence closing (C5) -/

/-- C5: when the scan reaches a weak-end ellipsis token (and the strong-end
branch does not apply), it looks ahead with `ellipsisSkip` — skipping further
weak-end and punctuation tokens to the next substantive token — and closes
the sentence exactly at the ellipsis (appending the span `(s, k+1)`, not
absorbing following closers) if and only if no such token exists (`n ≤ j`)
or that token carries the capitalized flag; otherwise scanning continues
without closing.  In particular, tokenizing and segmenting
"Okay... I guess" yields exactly the two sentence spans `(0,2)` and `(2,4)`,
the first ending at the ellipsis token (index 1). -/
theorem segment_ellipsis_close :
    (∀ (toks : List Token) (n fuel s k : Nat) (spans : List (Nat × Nat)),
      n = toks.length → k < n →
      (toks.getD k default).flags &&& TF_SENT_END_STRONG = 0 →
      (toks.getD k default).flags &&& TF_SENT_END_WEAK ≠ 0 →
      isWeakTerm (toks.getD k default).text →
      ((n ≤ ellipsisSkip toks n (n - (k + 1)) (k + 1) ∨
          (toks.getD (ellipsisSkip toks n (n - (k + 1)) (k + 1))
            default).flags &&& TF_CAP ≠ 0) →
        segLoop toks n (fuel + 1) s k spans =
          segLoop toks n fuel (k + 1) (k + 1) (spans ++ [(s, k + 1)])) ∧
      (¬ (n ≤ ellipsisSkip toks n (n - (k + 1)) (k + 1) ∨
          (toks.getD (ellipsisSkip toks n (n - (k + 1)) (k + 1))
            default).flags &&& TF_CAP ≠ 0) →
        segLoop toks n (fuel + 1) s k spans =
          segLoop toks n fuel s (k + 1) spans)) ∧
    segment_tokens (tokenize ("Okay... I guess".toList)) = [(0, 2), (2, 4)] ∧
    ((tokenize ("Okay... I guess".toList)).getD 1 default).text =
      "...".toList := by
  refine ⟨?_, by decide, by decide⟩
  intro toks n fuel s k spans hn hk hstrong hweak hterm
  constructor
  · intro hclose
    simp only [segLoop, if_pos hk, hstrong, if_neg (by simp : ¬ (0 : Nat) ≠ 0),
      if_pos (And.intro hweak hterm), if_pos hclose]
  · intro hclose
    simp only [segLoop, if_pos hk, hstrong, if_neg (by simp : ¬ (0 : Nat) ≠ 0),
      if_pos (And.intro hweak hterm), if_neg hclose]

def toksWitC5 : List Token := tokenize ("Okay... I guess".toList)

/-- Witness for C5 at the ellipsis token (index 1) of "Okay... I guess": the
lookahead finds the capitalized token "I", so the step closes the sentence
exactly at the ellipsis. -/
theorem segment_ellipsis_close_witness :
    segLoop toksWitC5 4 3 0 1 [] =
      segLoop toksWitC5 4 2 2 2 ([] ++ [(0, 2)]) :=
  (segment_ellipsis_close.1 toksWitC5 4 2 0 1 [] (by decide) (by decide)
    (by decide) (by decide) (by decide)).1 (by decide)

/-! ## Theorems: codec round trip (C1) -/

theorem and255_eq (x : Nat) (h : x < 256) : x &&& 255 = x := by
  rw [show (255 : Nat) = 2 ^ 8 - 1 from rfl, Nat.and_pow_two_sub_one_eq_mod]
  exact Nat.mod_eq_of_lt h

theorem and65535_eq (x : Nat) (h : x < 65536) : x &&& 65535 = x := by
  rw [show (65535 : Nat) = 2 ^ 16 - 1 from rfl, Nat.and_pow_two_sub_one_eq_mod]
  exact Nat.mod_eq_of_lt h

theorem and127_eq_mod (x : Nat) : x &&& 127 = x % 128 := by
  rw [show (127 : Nat) = 2 ^ 7 - 1 from rfl, Nat.and_pow_two_sub_one_eq_mod]

theorem and128_eq_zero (b : Nat) (h : b < 128) : b &&& 128 = 0 := by
  rw [show (128 : Nat) = 2 ^ 7 from rfl, Nat.and_two_pow,
    Nat.testBit_lt_two_pow (by simpa using h)]
  rfl

theorem lor128_and128_ne (b : Nat) : (b ||| 128) &&& 128 ≠ 0 := by
  rw [show (128 : Nat) = 2 ^ 7 from rfl, Nat.and_two_pow]
  have h : (b ||| 2 ^ 7).testBit 7 = true := by
    rw [Nat.testBit_or, Nat.testBit_two_pow_self, Bool.or_true]
  rw [h]
  norm_num

theorem lor128_and127 (b : Nat) (hb : b < 128) : (b ||| 128) &&& 127 = b := by
  apply Nat.eq_of_testBit_eq
  intro i
  rw [show (127 : Nat) = 2 ^ 7 - 1 from rfl, show (128 : Nat) = 2 ^ 7 from rfl]
  simp only [Nat.testBit_and, Nat.testBit_or, Nat.testBit_two_pow_sub_one,
    Nat.testBit_two_pow]
  by_cases hi : i < 7
  · have h7 : ¬ (7 = i) := by omega
    simp [hi, h7]
  · have h7i : (128 : Nat) ≤ 2 ^ i := by
      calc (128 : Nat) = 2 ^ 7 := rfl
        _ ≤ 2 ^ i := Nat.pow_le_pow_right (by norm_num) (by omega)
    have hbi : b.testBit i = false :=
      Nat.testBit_lt_two_pow (lt_of_lt_of_le hb h7i)
    simp [hi, hbi]

theorem lor_shift_recompose (v shift : Nat) :
    ((v &&& 127) <<< shift) ||| ((v >>> 7) <<< (shift + 7)) = v <<< shift := by
  apply Nat.eq_of_testBit_eq
  intro i
  rw [show (127 : Nat) = 2 ^ 7 - 1 from rfl]
  simp only [Nat.testBit_or, Nat.testBit_shiftLeft, Nat.testBit_shiftRight,
    Nat.testBit_and, Nat.testBit_two_pow_sub_one]
  by_cases h1 : i < shift
  · have d1 : ¬ shift ≤ i := by omega
    have d2 : ¬ shift + 7 ≤ i := by omega
    simp [d1, d2]
  · by_cases h2 : i < shift + 7
    · have d1 : shift ≤ i := by omega
      have d2 : ¬ shift + 7 ≤ i := by omega
      have d3 : i - shift < 7 := by omega
      simp [d1, d2, d3]
    · have d1 : shift ≤ i := by omega
      have d2 : shift + 7 ≤ i := by omega
      have d3 : ¬ i - shift < 7 := by omega
      have d4 : 7 + (i - (shift + 7)) = i - shift := by omega
      simp [d1, d2, d3, d4]

theorem uvarint_go_roundtrip :
    ∀ fuel v shift acc rest, v < fuel → v < 2 ^ (64 - shift) →
      _uvarint_decode_go shift acc (_uvarint_encode_go fuel v ++ rest) =
        some (acc ||| v <<< shift, rest) := by
  intro fuel
  induction fuel with
  | zero => intro v shift acc rest hv _; omega
  | succ fuel ih =>
    intro v shift acc rest hv hb
    have hdiv : v >>> 7 = v / 128 := by
      simp [Nat.shiftRight_eq_div_pow]
    by_cases hv7 : v >>> 7 ≠ 0
    · have hv128 : 128 ≤ v := by
        rw [hdiv] at hv7
        by_contra h
        exact hv7 (Nat.div_eq_of_lt (by omega))
      have hshift : shift ≤ 56 := by
        by_contra h
        have hle : (2 : Nat) ^ (64 - shift) ≤ 2 ^ 7 :=
          Nat.pow_le_pow_right (by norm_num) (by omega)
        have : (2 : Nat) ^ 7 = 128 := by norm_num
        omega
      have hfuel : v >>> 7 < fuel := by
        have := Nat.div_lt_self (show 0 < v by omega) (show 1 < 128 by norm_num)
        omega
      have hbound : v >>> 7 < 2 ^ (64 - (shift + 7)) := by
        rw [hdiv]
        rw [Nat.div_lt_iff_lt_mul (show 0 < 128 by norm_num)]
        have hexp : (2 : Nat) ^ (64 - shift) = 2 ^ (64 - (shift + 7)) * 128 := by
          rw [show (128 : Nat) = 2 ^ 7 from rfl, ← pow_add]
          congr 1
          omega
        omega
      simp only [_uvarint_encode_go, if_pos hv7, List.cons_append,
        _uvarint_decode_go]
      rw [lor128_and127 _ (by rw [and127_eq_mod]; omega)]
      rw [if_neg (lor128_and128_ne _), if_neg (by omega : ¬ shift + 7 > 63)]
      rw [ih (v >>> 7) (shift + 7) (acc ||| (v &&& 127) <<< shift) rest hfuel
        hbound]
      rw [Nat.lor_assoc, lor_shift_recompose]
    · have hv128 : v < 128 := by
        rw [hdiv] at hv7
        push_neg at hv7
        omega
      have hb127 : v &&& 127 = v := by
        rw [and127_eq_mod]
        exact Nat.mod_eq_of_lt hv128
      simp only [_uvarint_encode_go, if_neg hv7, List.cons_append,
        _uvarint_decode_go, hb127]
      rw [and128_eq_zero v hv128]
      simp

theorem uvarint_roundtrip (v : Nat) (hv : v < 2 ^ 64) (rest : List Nat) :
    _uvarint_decode (_uvarint_encode v ++ rest) = some (v, rest) := by
  unfold _uvarint_decode _uvarint_encode
  rw [uvarint_go_roundtrip (v + 1) v 0 0 rest (by omega) (by simpa using hv)]
  simp

/-- The declared per-field ranges of a Node on the wire: varints below
`2^64`, single bytes below 256, flags a 16-bit field. -/
def NodeInRange (n : Node) : Prop :=
  n.node_id < 2 ^ 64 ∧ n.n_type < 256 ∧ n.sub_type < 256 ∧
  n.features_ref < 2 ^ 64 ∧ n.span.1 < 2 ^ 64 ∧ n.span.2 < 2 ^ 64 ∧
  n.flags < 65536 ∧ n.confidence < 256 ∧ n.label_id < 2 ^ 64

/-- The declared per-field ranges of an Edge on the wire. -/
def EdgeInRange (e : Edge) : Prop :=
  e.src_id < 2 ^ 64 ∧ e.dst_id < 2 ^ 64 ∧ e.e_type < 256 ∧ e.weight < 256 ∧
  e.time < 2 ^ 64 ∧ e.flags < 65536 ∧ e.confidence < 256 ∧ e.attr_ref < 2 ^ 64

instance (n : Node) : Decidable (NodeInRange n) := by
  unfold NodeInRange; infer_instance

instance (e : Edge) : Decidable (EdgeInRange e) := by
  unfold EdgeInRange; infer_instance

theorem decode_encode_node (n : Node) (h : NodeInRange n) (rest : List Nat) :
    decode_node (encode_node n ++ rest) = some (n, rest) := by
  obtain ⟨h1, h2, h3, h4, h5, h6, h7, h8, h9⟩ := h
  simp only [encode_node, decode_node, u16le, List.append_assoc,
    List.cons_append, List.nil_append, Option.some_bind, readByte,
    List.take_succ_cons, List.take_zero, List.drop_succ_cons, List.drop_zero,
    from_bytes_le, Nat.mul_zero, Nat.add_zero,
    uvarint_roundtrip _ h1, uvarint_roundtrip _ h4, uvarint_roundtrip _ h5,
    uvarint_roundtrip _ h6, uvarint_roundtrip _ h9,
    and255_eq _ h2, and255_eq _ h3, and255_eq _ h8, and65535_eq _ h7,
    Nat.mod_add_div]

theorem decode_encode_edge (e : Edge) (h : EdgeInRange e) (rest : List Nat) :
    decode_edge (encode_edge e ++ rest) = some (e, rest) := by
  obtain ⟨h1, h2, h3, h4, h5, h6, h7, h8⟩ := h
  simp only [encode_edge, decode_edge, u16le, List.append_assoc,
    List.cons_append, List.nil_append, Option.some_bind, readByte,
    List.take_succ_cons, List.take_zero, List.drop_succ_cons, List.drop_zero,
    from_bytes_le, Nat.mul_zero, Nat.add_zero,
    uvarint_roundtrip _ h1, uvarint_roundtrip _ h2, uvarint_roundtrip _ h5,
    uvarint_roundtrip _ h8,
    and255_eq _ h3, and255_eq _ h4, and255_eq _ h7, and65535_eq _ h6,
    Nat.mod_add_div]

theorem decode_encode_nodes :
    ∀ (nodes : List Node) (rest : List Nat), (∀ n ∈ nodes, NodeInRange n) →
      decode_nodes nodes.length ((nodes.map encode_node).flatten ++ rest) =
        some (nodes, rest) := by
  intro nodes
  induction nodes with
  | nil => intro rest _; simp [decode_nodes]
  | cons n ns ih =>
    intro rest h
    simp only [List.map_cons, List.flatten_cons, List.append_assoc,
      List.length_cons, decode_nodes]
    rw [decode_encode_node n (h n (List.mem_cons_self _ _)) _]
    simp only [Option.some_bind]
    rw [ih rest (fun m hm => h m (List.mem_cons_of_mem _ hm))]
    simp

theorem decode_encode_edges :
    ∀ (edges : List Edge) (rest : List Nat), (∀ e ∈ edges, EdgeInRange e) →
      decode_edges edges.length ((edges.map encode_edge).flatten ++ rest) =
        some (edges, rest) := by
  intro edges
  induction edges with
  | nil => intro rest _; simp [decode_edges]
  | cons e es ih =>
    intro rest h
    simp only [List.map_cons, List.flatten_cons, List.append_assoc,
      List.length_cons, decode_edges]
    rw [decode_encode_edge e (h e (List.mem_cons_self _ _)) _]
    simp only [Option.some_bind]
    rw [ih rest (fun m hm => h m (List.mem_cons_of_mem _ hm))]
    simp

/-- The declared ranges of a Graph: counts equal to the list lengths, varints
below `2^64`, byte fields below 256, per-record ranges, and a thumbnail that
is absent or of length 64 or 128. -/
def GraphInRange (g : Graph) : Prop :=
  g.graph_id < 2 ^ 64 ∧ g.graph_type < 256 ∧
  g.num_nodes = g.nodes.length ∧ g.num_edges = g.edges.length ∧
  g.num_nodes < 2 ^ 64 ∧ g.num_edges < 2 ^ 64 ∧
  g.source_id < 2 ^ 64 ∧ g.version < 2 ^ 64 ∧ g.schema_id < 256 ∧
  (∀ n ∈ g.nodes, NodeInRange n) ∧ (∀ e ∈ g.edges, EdgeInRange e) ∧
  (g.g_features ≠ none →
    (g.g_features.getD []).length = 64 ∨ (g.g_features.getD []).length = 128)

instance (g : Graph) : Decidable (GraphInRange g) := by
  unfold GraphInRange; infer_instance

/-- C1 (amended): for every graph whose fields are within the declared
ranges and whose thumbnail is absent (`None`) or of length exactly 64 or 128,
`decode_pgraph(encode_pgraph(g))` reproduces `g` field-for-field, including
for the zero-node/zero-edge graph.  (The amendment excludes a present
thumbnail of length 0: the encoder writes it as length 0, which the decoder
necessarily returns as `None`, so that single case does not round-trip.) -/
theorem decode_encode_pgraph (g : Graph) (h : GraphInRange g) :
    decode_pgraph (encode_pgraph g) = some g := by
  obtain ⟨h1, h2, h3, h4, h5, h6, h7, h8, h9, hn, he, hf⟩ := h
  simp only [encode_pgraph, decode_pgraph, List.append_assoc]
  rw [List.take_left' (show (_PG_MAGIC).length = 4 from rfl),
    List.drop_left' (show (_PG_MAGIC).length = 4 from rfl), if_neg (by simp)]
  simp only [List.cons_append, List.nil_append, Option.some_bind, readByte,
    uvarint_roundtrip _ h1, and255_eq _ h2, uvarint_roundtrip _ h5,
    uvarint_roundtrip _ h6, uvarint_roundtrip _ h7, uvarint_roundtrip _ h8,
    and255_eq _ h9]
  rw [h3, h4, decode_encode_nodes _ _ hn]
  simp only [Option.some_bind]
  rw [decode_encode_edges _ _ he]
  simp only [Option.some_bind]
  cases hgf : g.g_features with
  | none =>
    simp only [hgf, Option.getD_none, List.length_nil]
    rw [uvarint_roundtrip 0 (by norm_num) []]
    simp only [Option.some_bind, ne_eq, not_true_eq_false, ite_false,
      if_neg (show ¬ (0 : Nat) ≠ 0 from by simp)]
    rw [← h3, ← h4, ← hgf]
  | some f =>
    have hne : g.g_features ≠ none := by rw [hgf]; simp
    have hflen : f.length = 64 ∨ f.length = 128 := by
      have hl := hf hne
      rw [hgf] at hl
      simpa using hl
    simp only [hgf, Option.getD_some]
    rw [uvarint_roundtrip f.length
      (by rcases hflen with ho | ho <;> rw [ho] <;> norm_num) f]
    simp only [Option.some_bind]
    rw [if_pos (show f.length ≠ 0 by omega)]
    simp only [List.take_length]
    rw [if_neg (by simp)]
    rw [← h3, ← h4, ← hgf]

def gEmptyC1 : Graph :=
  { graph_id := 0, graph_type := 5, num_nodes := 0, num_edges := 0,
    g_features := none, source_id := 0, version := 1, schema_id := 1,
    nodes := [], edges := [] }

def gThumbC1 : Graph := { gEmptyC1 with g_features := some [] }

def gFullC1 : Graph :=
  { graph_id := 1, graph_type := 5, num_nodes := 2, num_edges := 1,
    g_features := some (List.replicate 64 7), source_id := 0, version := 1,
    schema_id := 1,
    nodes := [⟨0, 1, 0, 0, (0, 1), 4, 240, 123⟩,
              ⟨1, 1, 0, 0, (1, 2), 0, 255, 456⟩],
    edges := [⟨0, 1, 9, 255, 0, 1, 255, 0⟩] }

/-- C1 counterexample: the zero-node/zero-edge graph with a present
thumbnail of length 0 (`b""`, in the claim's declared range
`{0, 64, 128}`) does not round-trip: the decoder returns it as `None`. -/
theorem decode_encode_len0_thumbnail_counterexample :
    gThumbC1.g_features = some [] ∧
    (gThumbC1.g_features.getD []).length = 0 ∧
    decode_pgraph (encode_pgraph gThumbC1) ≠ some gThumbC1 ∧
    decode_pgraph (encode_pgraph gThumbC1) =
      some { gThumbC1 with g_features := none } := by
  exact ⟨rfl, rfl, by decide, by decide⟩

/-- Witness for C1 (amended) on the zero-node/zero-edge graph and on a
2-node/1-edge graph with a 64-byte thumbnail. -/
theorem decode_encode_pgraph_witness :
    decode_pgraph (encode_pgraph gEmptyC1) = some gEmptyC1 ∧
    decode_pgraph (encode_pgraph gFullC1) = some gFullC1 :=
  ⟨decode_encode_pgraph gEmptyC1 (by decide),
   decode_encode_pgraph gFullC1 (by decide)⟩

/-! ## Theorems: decode failure discipline (C2)

The faithful decoder `decode_pgraph` (Python slicing semantics: a 2-byte
flags slice at the end of the buffer silently comes up short, the magic
comparison works on a short slice) agrees with `decode_pgraph_spec`, which
fails the moment any read would run past the end of the buffer.  Hence every
out-of-bounds read makes the decode call fail, and a failing decode returns
no Graph at all. -/

theorem decode_node_eq (b : List Nat) : decode_node b = decode_node_spec b := by
  unfold decode_node decode_node_spec
  cases h1 : _uvarint_decode b with
  | none => rfl
  | some p1 =>
    simp only [Option.some_bind]
    cases h2 : readByte p1.2 with
    | none => rfl
    | some p2 =>
    simp only [Option.some_bind]
    cases h3 : readByte p2.2 with
    | none => rfl
    | some p3 =>
    simp only [Option.some_bind]
    cases h4 : _uvarint_decode p3.2 with
    | none => rfl
    | some p4 =>
    simp only [Option.some_bind]
    cases h5 : _uvarint_decode p4.2 with
    | none => rfl
    | some p5 =>
    simp only [Option.some_bind]
    cases h6 : _uvarint_decode p5.2 with
    | none => rfl
    | some p6 =>
    simp only [Option.some_bind]
    match hb : p6.2 with
    | [] => simp [readU16_spec, readByte]
    | [b0] => simp [readU16_spec, readByte]
    | b0 :: b1 :: t2 => simp [readU16_spec, readByte]

theorem decode_edge_eq (b : List Nat) : decode_edge b = decode_edge_spec b := by
  unfold decode_edge decode_edge_spec
  cases h1 : _uvarint_decode b with
  | none => rfl
  | some p1 =>
    simp only [Option.some_bind]
    cases h2 : _uvarint_decode p1.2 with
    | none => rfl
    | some p2 =>
    simp only [Option.some_bind]
    cases h3 : readByte p2.2 with
    | none => rfl
    | some p3 =>
    simp only [Option.some_bind]
    cases h4 : readByte p3.2 with
    | none => rfl
    | some p4 =>
    simp only [Option.some_bind]
    cases h5 : _uvarint_decode p4.2 with
    | none => rfl
    | some p5 =>
    simp only [Option.some_bind]
    match hb : p5.2 with
    | [] => simp [readU16_spec, readByte]
    | [b0] => simp [readU16_spec, readByte]
    | b0 :: b1 :: t2 => simp [readU16_spec, readByte]

theorem decode_nodes_eq : ∀ (k : Nat) (b : List Nat),
    decode_nodes k b = decode_nodes_spec k b := by
  intro k
  induction k with
  | zero => intro b; rfl
  | succ k ih =>
    intro b
    simp only [decode_nodes, decode_nodes_spec, decode_node_eq, ih]

theorem decode_edges_eq : ∀ (k : Nat) (b : List Nat),
    decode_edges k b = decode_edges_spec k b := by
  intro k
  induction k with
  | zero => intro b; rfl
  | succ k ih =>
    intro b
    simp only [decode_edges, decode_edges_spec, decode_edge_eq, ih]

theorem take_len_ne_iff (a : Nat) (l : List Nat) :
    (l.take a).length ≠ a ↔ l.length < a := by
  rw [List.length_take]
  omega

/-- C2: on every input buffer, `decode_pgraph` behaves exactly like the
spec-side decoder that fails as soon as any read — fixed-width (magic,
single bytes, 2-byte little-endian flag fields) or variable-length (varints,
thumbnail bytes) — runs past the end of the buffer.  In particular every
such overrun makes the decode call fail, and a failing decode never returns
a partial Graph. -/
theorem decode_pgraph_eq_spec (buf : List Nat) :
    decode_pgraph buf = decode_pgraph_spec buf := by
  unfold decode_pgraph decode_pgraph_spec
  by_cases hlen : buf.length < 4
  · have hlt : (buf.take 4).length < 4 := by
      rw [List.length_take]
      omega
    have hne : buf.take 4 ≠ _PG_MAGIC := by
      intro he
      rw [he] at hlt
      simp [_PG_MAGIC] at hlt
    rw [if_pos hne, if_pos hlen]
  · rw [if_neg hlen]
    by_cases hmag : buf.take 4 ≠ _PG_MAGIC
    · rw [if_pos hmag, if_pos hmag]
    · rw [if_neg hmag, if_neg hmag]
      simp only [decode_nodes_eq, decode_edges_eq, take_len_ne_iff]

/-! ## Theorems: tokenizer losslessness fails mid-text (C7) -/

/-- C7 (refuting evaluation): on the input `"@ a"` the character `@` at
index 0 is not whitespace and matches no grammar alternative; because it is
followed by further matches, the scan's `i` marker ends at the end of the
last match and no fallback token is created for it.  The output is the
single token `"a"` over `[2,3)`, so the non-whitespace character at index 0
lies inside no emitted token — contradicting losslessness (the residue
fallback only covers trailing residue). -/
theorem tokenize_drops_midtext_residue :
    tokenize ("@ a".toList) = [⟨0, ['a'], 2, 3, 0⟩] ∧
    isSpace '@' = false ∧
    ∀ t ∈ tokenize ("@ a".toList), ¬ (t.start ≤ 0 ∧ 0 < t.endPos) := by
  refine ⟨by decide, by decide, by decide⟩

/-! ## Bitfield helper lemmas (flag reasoning for C6 and C8) -/

theorem and_lor_of_disjoint {g f : Nat} (h : g &&& f = 0) (x : Nat) :
    (x ||| g) &&& f = x &&& f := by
  apply Nat.eq_of_testBit_eq
  intro i
  have hg : (g &&& f).testBit i = false := by rw [h]; exact Nat.zero_testBit i
  rw [Nat.testBit_and] at hg
  rw [Nat.testBit_and, Nat.testBit_and, Nat.testBit_or]
  cases hfb : f.testBit i
  · simp
  · rw [hfb] at hg
    simp only [Bool.and_true] at hg
    simp [hg]

theorem and_lor_left_ne {x f : Nat} (h : x &&& f ≠ 0) (g : Nat) :
    (x ||| g) &&& f ≠ 0 := by
  intro h0
  apply h
  apply Nat.eq_of_testBit_eq
  intro i
  have h0i : ((x ||| g) &&& f).testBit i = false := by
    rw [h0]; exact Nat.zero_testBit i
  rw [Nat.testBit_and, Nat.testBit_or] at h0i
  rw [Nat.testBit_and, Nat.zero_testBit]
  cases hx : x.testBit i <;> cases hf : f.testBit i <;> simp_all

theorem and_lor_self_ne (x : Nat) {f : Nat} (hf : f ≠ 0) :
    (x ||| f) &&& f ≠ 0 := by
  obtain ⟨i, hi⟩ := Nat.ne_zero_implies_bit_true hf
  intro h0
  have h0i : ((x ||| f) &&& f).testBit i = false := by
    rw [h0]; exact Nat.zero_testBit i
  rw [Nat.testBit_and, Nat.testBit_or] at h0i
  simp [hi] at h0i

theorem and_two_pow_eq_zero_of_lt {x b c : Nat} (h : x < 2 ^ b) (hbc : b ≤ c) :
    x &&& 2 ^ c = 0 := by
  rw [Nat.and_two_pow,
    Nat.testBit_lt_two_pow
      (lt_of_lt_of_le h (Nat.pow_le_pow_right (by norm_num) hbc))]
  simp

theorem flags_lt8_strong_zero {x : Nat} (h : x < 8) :
    x &&& TF_SENT_END_STRONG = 0 := by
  have := and_two_pow_eq_zero_of_lt (show x < 2 ^ 3 from h) (le_refl 3)
  simpa [TF_SENT_END_STRONG] using this

theorem flags_lt8_weak_zero {x : Nat} (h : x < 8) :
    x &&& TF_SENT_END_WEAK = 0 := by
  have := and_two_pow_eq_zero_of_lt (show x < 2 ^ 3 from h)
    (show 3 ≤ 4 by omega)
  simpa [TF_SENT_END_WEAK] using this

/-! ## List update lemmas for the second tokenizer pass -/

theorem orFlagAt_length : ∀ (ts : List Token) (m f : Nat),
    (orFlagAt ts m f).length = ts.length := by
  intro ts
  induction ts with
  | nil => intro m f; rfl
  | cons t ts ih =>
    intro m f
    cases m with
    | zero => rfl
    | succ m => simp [orFlagAt, ih]

theorem orFlagAt_getD_ne : ∀ (ts : List Token) (m f i : Nat), i ≠ m →
    (orFlagAt ts m f).getD i default = ts.getD i default := by
  intro ts
  induction ts with
  | nil => intro m f i _; cases m <;> rfl
  | cons t ts ih =>
    intro m f i hne
    cases m with
    | zero =>
      cases i with
      | zero => omega
      | succ i => rfl
    | succ m =>
      cases i with
      | zero => rfl
      | succ i =>
        show (orFlagAt ts m f).getD i default = ts.getD i default
        exact ih m f i (by omega)

theorem orFlagAt_getD_eq : ∀ (ts : List Token) (m f : Nat), m < ts.length →
    (orFlagAt ts m f).getD m default =
      { ts.getD m default with flags := (ts.getD m default).flags ||| f } := by
  intro ts
  induction ts with
  | nil => intro m f h; simp at h
  | cons t ts ih =>
    intro m f h
    cases m with
    | zero => rfl
    | succ m =>
      show (orFlagAt ts m f).getD m default = _
      exact ih m f (by simpa using h)

theorem orFlagAt_text (ts : List Token) (m f i : Nat) :
    ((orFlagAt ts m f).getD i default).text = (ts.getD i default).text := by
  by_cases h : i = m
  · subst h
    by_cases hm : i < ts.length
    · rw [orFlagAt_getD_eq ts i f hm]
    · have h1 : ts.length ≤ i := by omega
      have h2 : (orFlagAt ts i f).length ≤ i := by rw [orFlagAt_length]; omega
      rw [List.getD_eq_default _ _ h1, List.getD_eq_default _ _ h2]
  · rw [orFlagAt_getD_ne ts m f i h]

theorem bubbleWeak_length : ∀ (fuel : Nat) (ts : List Token) (j : Nat),
    (bubbleWeak fuel ts j).length = ts.length := by
  intro fuel
  induction fuel with
  | zero => intro ts j; rfl
  | succ fuel ih =>
    intro ts j
    by_cases h : j < ts.length ∧ isCloser ((ts.getD j default).text)
    · simp only [bubbleWeak, if_pos h]
      rw [ih, orFlagAt_length]
    · simp only [bubbleWeak, if_neg h]

theorem bubbleWeak_text : ∀ (fuel : Nat) (ts : List Token) (j i : Nat),
    ((bubbleWeak fuel ts j).getD i default).text = (ts.getD i default).text := by
  intro fuel
  induction fuel with
  | zero => intro ts j i; rfl
  | succ fuel ih =>
    intro ts j i
    by_cases h : j < ts.length ∧ isCloser ((ts.getD j default).text)
    · simp only [bubbleWeak, if_pos h]
      rw [ih, orFlagAt_text]
    · simp only [bubbleWeak, if_neg h]

theorem bubbleWeak_mono : ∀ (fuel : Nat) (ts : List Token) (j i : Nat)
    {f : Nat}, (ts.getD i default).flags &&& f ≠ 0 →
    ((bubbleWeak fuel ts j).getD i default).flags &&& f ≠ 0 := by
  intro fuel
  induction fuel with
  | zero => intro ts j i f h; exact h
  | succ fuel ih =>
    intro ts j i f h
    by_cases hg : j < ts.length ∧ isCloser ((ts.getD j default).text)
    · simp only [bubbleWeak, if_pos hg]
      apply ih
      by_cases hij : i = j
      · subst hij
        rw [orFlagAt_getD_eq _ _ _ hg.1]
        exact and_lor_left_ne h _
      · rw [orFlagAt_getD_ne _ _ _ _ hij]
        exact h
    · simp only [bubbleWeak, if_neg hg]
      exact h

theorem bubbleWeak_disjoint : ∀ (fuel : Nat) (ts : List Token) (j i : Nat)
    {f : Nat}, TF_SENT_END_WEAK &&& f = 0 →
    ((bubbleWeak fuel ts j).getD i default).flags &&& f =
      (ts.getD i default).flags &&& f := by
  intro fuel
  induction fuel with
  | zero => intro ts j i f _; rfl
  | succ fuel ih =>
    intro ts j i f hdisj
    by_cases hg : j < ts.length ∧ isCloser ((ts.getD j default).text)
    · simp only [bubbleWeak, if_pos hg]
      rw [ih _ _ _ hdisj]
      by_cases hij : i = j
      · subst hij
        rw [orFlagAt_getD_eq _ _ _ hg.1]
        exact and_lor_of_disjoint hdisj _
      · rw [orFlagAt_getD_ne _ _ _ _ hij]
    · simp only [bubbleWeak, if_neg hg]

theorem bubbleWeak_sets : ∀ (fuel : Nat) (ts : List Token) (j i : Nat),
    j ≤ i → i < ts.length → ts.length - j ≤ fuel →
    (∀ m, j ≤ m → m ≤ i → isCloser ((ts.getD m default).text) = true) →
    ((bubbleWeak fuel ts j).getD i default).flags &&& TF_SENT_END_WEAK ≠ 0 := by
  intro fuel
  induction fuel with
  | zero => intro ts j i hji hi hf _; omega
  | succ fuel ih =>
    intro ts j i hji hi hf hcl
    have hg : j < ts.length ∧ isCloser ((ts.getD j default).text) :=
      ⟨by omega, hcl j (le_refl j) hji⟩
    simp only [bubbleWeak, if_pos hg]
    by_cases hij : i = j
    · subst hij
      apply bubbleWeak_mono
      rw [orFlagAt_getD_eq _ _ _ hg.1]
      exact and_lor_self_ne _ (by decide)
    · apply ih
      · omega
      · rw [orFlagAt_length]; omega
      · rw [orFlagAt_length]; omega
      · intro m hm1 hm2
        rw [orFlagAt_text]
        exact hcl m (by omega) hm2

/-- One unfolding step of the second pass at an in-range index. -/
theorem sentLoop_step (kinds : List TKind) (fuel k : Nat) (ts : List Token)
    (hk : k < ts.length) :
    sentLoop kinds (fuel + 1) k ts =
      sentLoop kinds fuel (k + 1)
        (if kinds.getD k TKind.WS = TKind.PUNCT ∨
            kinds.getD k TKind.WS = TKind.ELLIPSIS then
           if isStrongTerm ((ts.getD k default).text) then
             bubbleWeak ts.length (orFlagAt ts k TF_SENT_END_STRONG) (k + 1)
           else if isWeakTerm ((ts.getD k default).text) then
             orFlagAt ts k TF_SENT_END_WEAK
           else ts
         else ts) := by
  simp only [sentLoop, if_pos hk]

/-- The list produced by one step of the second pass: length preserved. -/
theorem sentStep_length (kinds : List TKind) (k : Nat) (ts : List Token) :
    (if kinds.getD k TKind.WS = TKind.PUNCT ∨
        kinds.getD k TKind.WS = TKind.ELLIPSIS then
       if isStrongTerm ((ts.getD k default).text) then
         bubbleWeak ts.length (orFlagAt ts k TF_SENT_END_STRONG) (k + 1)
       else if isWeakTerm ((ts.getD k default).text) then
         orFlagAt ts k TF_SENT_END_WEAK
       else ts
     else ts).length = ts.length := by
  split_ifs <;> simp [bubbleWeak_length, orFlagAt_length]

/-- The list produced by one step of the second pass: texts preserved. -/
theorem sentStep_text (kinds : List TKind) (k : Nat) (ts : List Token)
    (i : Nat) :
    (((if kinds.getD k TKind.WS = TKind.PUNCT ∨
          kinds.getD k TKind.WS = TKind.ELLIPSIS then
         if isStrongTerm ((ts.getD k default).text) then
           bubbleWeak ts.length (orFlagAt ts k TF_SENT_END_STRONG) (k + 1)
         else if isWeakTerm ((ts.getD k default).text) then
           orFlagAt ts k TF_SENT_END_WEAK
         else ts
       else ts).getD i default)).text = ((ts.getD i default)).text := by
  split_ifs
  · rw [bubbleWeak_text, orFlagAt_text]
  · rw [orFlagAt_text]
  · rfl
  · rfl

theorem sentLoop_length (kinds : List TKind) : ∀ (fuel k : Nat) (ts : List Token),
    (sentLoop kinds fuel k ts).length = ts.length := by
  intro fuel
  induction fuel with
  | zero => intro k ts; rfl
  | succ fuel ih =>
    intro k ts
    by_cases hk : k < ts.length
    · rw [sentLoop_step kinds fuel k ts hk, ih, sentStep_length]
    · simp only [sentLoop, if_neg hk]

theorem sentLoop_text (kinds : List TKind) :
    ∀ (fuel k : Nat) (ts : List Token) (i : Nat),
      ((sentLoop kinds fuel k ts).getD i default).text =
        (ts.getD i default).text := by
  intro fuel
  induction fuel with
  | zero => intro k ts i; rfl
  | succ fuel ih =>
    intro k ts i
    by_cases hk : k < ts.length
    · rw [sentLoop_step kinds fuel k ts hk, ih, sentStep_text]
    · simp only [sentLoop, if_neg hk]

theorem sentLoop_mono (kinds : List TKind) :
    ∀ (fuel k : Nat) (ts : List Token) (i : Nat) {f : Nat},
      (ts.getD i default).flags &&& f ≠ 0 →
      ((sentLoop kinds fuel k ts).getD i default).flags &&& f ≠ 0 := by
  intro fuel
  induction fuel with
  | zero => intro k ts i f h; exact h
  | succ fuel ih =>
    intro k ts i f h
    by_cases hk : k < ts.length
    · rw [sentLoop_step kinds fuel k ts hk]
      apply ih
      split_ifs
      · apply bubbleWeak_mono
        by_cases hik : i = k
        · subst hik
          rw [orFlagAt_getD_eq _ _ _ hk]
          exact and_lor_left_ne h _
        · rw [orFlagAt_getD_ne _ _ _ _ hik]
          exact h
      · by_cases hik : i = k
        · subst hik
          rw [orFlagAt_getD_eq _ _ _ hk]
          exact and_lor_left_ne h _
        · rw [orFlagAt_getD_ne _ _ _ _ hik]
          exact h
      · exact h
      · exact h
    · simp only [sentLoop, if_neg hk]
      exact h

theorem sentLoop_disjoint (kinds : List TKind) :
    ∀ (fuel k : Nat) (ts : List Token) (i : Nat) {f : Nat},
      TF_SENT_END_STRONG &&& f = 0 → TF_SENT_END_WEAK &&& f = 0 →
      ((sentLoop kinds fuel k ts).getD i default).flags &&& f =
        (ts.getD i default).flags &&& f := by
  intro fuel
  induction fuel with
  | zero => intro k ts i f _ _; rfl
  | succ fuel ih =>
    intro k ts i f hdS hdW
    by_cases hk : k < ts.length
    · rw [sentLoop_step kinds fuel k ts hk, ih _ _ _ hdS hdW]
      split_ifs
      · rw [bubbleWeak_disjoint _ _ _ _ hdW]
        by_cases hik : i = k
        · subst hik
          rw [orFlagAt_getD_eq _ _ _ hk]
          exact and_lor_of_disjoint hdS _
        · rw [orFlagAt_getD_ne _ _ _ _ hik]
      · by_cases hik : i = k
        · subst hik
          rw [orFlagAt_getD_eq _ _ _ hk]
          exact and_lor_of_disjoint hdW _
        · rw [orFlagAt_getD_ne _ _ _ _ hik]
      · rfl
      · rfl
    · simp only [sentLoop, if_neg hk]

theorem sentLoop_strong_pres (kinds : List TKind) :
    ∀ (fuel k : Nat) (ts : List Token) (i : Nat),
      isStrongTerm ((ts.getD i default).text) = false →
      ((sentLoop kinds fuel k ts).getD i default).flags &&& TF_SENT_END_STRONG =
        (ts.getD i default).flags &&& TF_SENT_END_STRONG := by
  intro fuel
  induction fuel with
  | zero => intro k ts i _; rfl
  | succ fuel ih =>
    intro k ts i hns
    by_cases hk : k < ts.length
    · rw [sentLoop_step kinds fuel k ts hk]
      rw [ih _ _ i (by rw [sentStep_text]; exact hns)]
      split_ifs with h1 h2 h3
      · rw [bubbleWeak_disjoint _ _ _ _ (by decide)]
        by_cases hik : i = k
        · subst hik
          rw [h2] at hns
          cases hns
        · rw [orFlagAt_getD_ne _ _ _ _ hik]
      · by_cases hik : i = k
        · subst hik
          rw [orFlagAt_getD_eq _ _ _ hk]
          exact and_lor_of_disjoint (by decide) _
        · rw [orFlagAt_getD_ne _ _ _ _ hik]
      · rfl
      · rfl
    · simp only [sentLoop, if_neg hk]

theorem sentLoop_strong_sets (kinds : List TKind) :
    ∀ (fuel k : Nat) (ts : List Token) (i : Nat),
      k ≤ i → i < ts.length → ts.length - k ≤ fuel →
      (kinds.getD i TKind.WS = TKind.PUNCT ∨
       kinds.getD i TKind.WS = TKind.ELLIPSIS) →
      isStrongTerm ((ts.getD i default).text) = true →
      ((sentLoop kinds fuel k ts).getD i default).flags &&&
        TF_SENT_END_STRONG ≠ 0 := by
  intro fuel
  induction fuel with
  | zero => intro k ts i hki hi hf _ _; omega
  | succ fuel ih =>
    intro k ts i hki hi hf hK hS
    have hk : k < ts.length := by omega
    rw [sentLoop_step kinds fuel k ts hk]
    by_cases hik : i = k
    · subst hik
      rw [if_pos hK, if_pos hS]
      apply sentLoop_mono
      apply bubbleWeak_mono
      rw [orFlagAt_getD_eq _ _ _ hk]
      exact and_lor_self_ne _ (by decide)
    · apply ih
      · omega
      · rw [sentStep_length]; omega
      · rw [sentStep_length]; omega
      · exact hK
      · rw [sentStep_text]; exact hS

theorem sentLoop_closers (kinds : List TKind) :
    ∀ (fuel k : Nat) (ts : List Token) (ks j : Nat),
      k ≤ ks → ks < ts.length → ks < j → j < ts.length →
      ts.length - k ≤ fuel →
      (kinds.getD ks TKind.WS = TKind.PUNCT ∨
       kinds.getD ks TKind.WS = TKind.ELLIPSIS) →
      isStrongTerm ((ts.getD ks default).text) = true →
      (∀ m, ks < m → m ≤ j → isCloser ((ts.getD m default).text) = true) →
      ((sentLoop kinds fuel k ts).getD j default).flags &&&
        TF_SENT_END_WEAK ≠ 0 := by
  intro fuel
  induction fuel with
  | zero => intro k ts ks j h1 h2 h3 h4 hf _ _ _; omega
  | succ fuel ih =>
    intro k ts ks j hkks hks hksj hj hf hK hS hcl
    have hk : k < ts.length := by omega
    rw [sentLoop_step kinds fuel k ts hk]
    by_cases hik : ks = k
    · subst hik
      rw [if_pos hK, if_pos hS]
      apply sentLoop_mono
      apply bubbleWeak_sets _ _ _ j (by omega)
        (by rw [orFlagAt_length]; omega)
        (by rw [orFlagAt_length]; omega)
      intro m hm1 hm2
      rw [orFlagAt_text]
      exact hcl m (by omega) hm2
    · apply ih _ _ ks j (by omega)
      · rw [sentStep_length]; omega
      · omega
      · rw [sentStep_length]; omega
      · rw [sentStep_length]; omega
      · exact hK
      · rw [sentStep_text]; exact hS
      · intro m hm1 hm2
        rw [sentStep_text]
        exact hcl m hm1 hm2

theorem weakTerm_not_strong {t : List Char} (h : isWeakTerm t = true) :
    isStrongTerm t = false := by
  have ht : t = ['…'] ∨ t = ['.', '.', '.'] := by
    simp only [isWeakTerm, Bool.or_eq_true, beq_iff_eq] at h
    exact h
  rcases ht with ht | ht <;> subst ht <;> decide

theorem sentLoop_weakterm (kinds : List TKind) :
    ∀ (fuel k : Nat) (ts : List Token) (i : Nat),
      k ≤ i → i < ts.length → ts.length - k ≤ fuel →
      (kinds.getD i TKind.WS = TKind.PUNCT ∨
       kinds.getD i TKind.WS = TKind.ELLIPSIS) →
      isWeakTerm ((ts.getD i default).text) = true →
      ((sentLoop kinds fuel k ts).getD i default).flags &&&
        TF_SENT_END_WEAK ≠ 0 := by
  intro fuel
  induction fuel with
  | zero => intro k ts i hki hi hf _ _; omega
  | succ fuel ih =>
    intro k ts i hki hi hf hK hW
    have hk : k < ts.length := by omega
    rw [sentLoop_step kinds fuel k ts hk]
    by_cases hik : i = k
    · subst hik
      rw [if_pos hK, if_neg (by rw [weakTerm_not_strong hW]; simp), if_pos hW]
      apply sentLoop_mono
      rw [orFlagAt_getD_eq _ _ _ hk]
      exact and_lor_self_ne _ (by decide)
    · apply ih
      · omega
      · rw [sentStep_length]; omega
      · rw [sentStep_length]; omega
      · exact hK
      · rw [sentStep_text]; exact hW

/-! ## Matcher shape lemmas (first-pass token characterization) -/

theorem maxRun_ne_zero {p : Char → Bool} {s : List Char}
    (h : maxRun p s ≠ 0) : ∃ c rest, s = c :: rest ∧ p c = true := by
  cases s with
  | nil => simp [maxRun] at h
  | cons c rest =>
    by_cases hp : p c
    · exact ⟨c, rest, rfl, hp⟩
    · simp [maxRun, hp] at h

theorem head_drop_get : ∀ (s : List Char) (n : Nat),
    (s.drop n).head? = s.get? n := by
  intro s
  induction s with
  | nil => intro n; cases n <;> rfl
  | cons c cs ih =>
    intro n
    cases n with
    | zero => rfl
    | succ n => exact ih n

theorem take_eq_singleton {s : List Char} {ℓ : Nat} {c : Char}
    (h : s.take ℓ = [c]) : ∃ rest, s = c :: rest ∧ 1 ≤ ℓ := by
  cases ℓ with
  | zero => simp at h
  | succ ℓ =>
    cases s with
    | nil => simp at h
    | cons a rest =>
      rw [List.take_succ_cons] at h
      injection h with h1 h2
      exact ⟨rest, by rw [h1], by omega⟩

theorem take_eq_three {s : List Char} {ℓ : Nat} {a b c : Char}
    (h : s.take ℓ = [a, b, c]) :
    ∃ rest, s = a :: b :: c :: rest ∧ 3 ≤ ℓ := by
  cases ℓ with
  | zero => simp at h
  | succ ℓ1 =>
    cases s with
    | nil => simp at h
    | cons x xs =>
      rw [List.take_succ_cons] at h
      injection h with h1 h2
      cases ℓ1 with
      | zero => simp at h2
      | succ ℓ2 =>
        cases xs with
        | nil => simp at h2
        | cons y ys =>
          rw [List.take_succ_cons] at h2
          injection h2 with h3 h4
          cases ℓ2 with
          | zero => simp at h4
          | succ ℓ3 =>
            cases ys with
            | nil => simp at h4
            | cons z zs =>
              rw [List.take_succ_cons] at h4
              injection h4 with h5 h6
              exact ⟨zs, by rw [h1, h3, h5], by omega⟩

theorem urlMatch_shape {s : List Char} {ℓ : Nat} (h : urlMatch s = some ℓ) :
    1 ≤ ℓ ∧ ∃ c rest, s = c :: rest ∧ (c = 'h' ∨ c = 'w') := by
  unfold urlMatch at h
  by_cases h8 : ("https://".toList).isPrefixOf s
  · rw [if_pos h8] at h
    obtain ⟨t, ht⟩ := List.isPrefixOf_iff_prefix.mp h8
    by_cases hk : maxRun (fun c => !isSpace c) (s.drop 8) = 0
    · simp [hk] at h
    · rw [if_neg hk] at h
      injection h with h
      exact ⟨by omega, 'h', _, by rw [← ht]; rfl, Or.inl rfl⟩
  · rw [if_neg h8] at h
    by_cases h7 : ("http://".toList).isPrefixOf s
    · rw [if_pos h7] at h
      obtain ⟨t, ht⟩ := List.isPrefixOf_iff_prefix.mp h7
      by_cases hk : maxRun (fun c => !isSpace c) (s.drop 7) = 0
      · simp [hk] at h
      · rw [if_neg hk] at h
        injection h with h
        exact ⟨by omega, 'h', _, by rw [← ht]; rfl, Or.inl rfl⟩
    · rw [if_neg h7] at h
      by_cases h4 : ("www.".toList).isPrefixOf s
      · rw [if_pos h4] at h
        obtain ⟨t, ht⟩ := List.isPrefixOf_iff_prefix.mp h4
        by_cases hk : maxRun (fun c => !isSpace c) (s.drop 4) = 0
        · simp [hk] at h
        · rw [if_neg hk] at h
          injection h with h
          exact ⟨by omega, 'w', _, by rw [← ht]; rfl, Or.inr rfl⟩
      · rw [if_neg h4] at h
        cases h

theorem emailMatch_shape {s : List Char} {ℓ : Nat} (h : emailMatch s = some ℓ) :
    1 ≤ ℓ ∧ ∃ i, i < ℓ ∧ s.get? i = some '@' := by
  unfold emailMatch at h
  by_cases hl : maxRun isEmailLocalChar s = 0
  · simp [hl] at h
  · rw [if_neg hl] at h
    by_cases hat : (s.drop (maxRun isEmailLocalChar s)).head? = some '@'
    · rw [if_pos hat] at h
      simp only [] at h
      cases hbt : emailDomainBacktrack
          (s.drop (maxRun isEmailLocalChar s + 1))
          (maxRun isEmailDomainChar (s.drop (maxRun isEmailLocalChar s + 1)))
        with
      | none => rw [hbt] at h; cases h
      | some m =>
        rw [hbt] at h
        injection h with h
        rw [head_drop_get] at hat
        exact ⟨by omega, maxRun isEmailLocalChar s, by omega, hat⟩
    · rw [if_neg hat] at h
      cases h

theorem handleMatch_shape {s : List Char} {ℓ : Nat} (h : handleMatch s = some ℓ) :
    1 ≤ ℓ ∧ ∃ c rest, s = c :: rest ∧ (c = '@' ∨ c = '#') := by
  cases s with
  | nil => simp [handleMatch] at h
  | cons c rest =>
    simp only [handleMatch] at h
    by_cases hc : (c == '@' || c == '#') = true
    · rw [if_pos hc] at h
      by_cases hk : maxRun isHandleChar rest = 0
      · simp [hk] at h
      · rw [if_neg hk] at h
        injection h with h
        simp only [Bool.or_eq_true, beq_iff_eq] at hc
        exact ⟨by omega, c, rest, rfl, hc⟩
    · rw [if_neg hc] at h
      cases h

theorem wordMatch_shape {s : List Char} {ℓ : Nat} (h : wordMatch s = some ℓ) :
    1 ≤ ℓ ∧ ∃ c rest, s = c :: rest ∧ isWordChar c = true := by
  unfold wordMatch at h
  by_cases hl : maxRun isWordChar s = 0
  · simp [hl] at h
  · rw [if_neg hl] at h
    injection h with h
    obtain ⟨c, rest, hs, hc⟩ := maxRun_ne_zero hl
    exact ⟨by omega, c, rest, hs, hc⟩

theorem punctMatch_shape {s : List Char} {ℓ : Nat} (h : punctMatch s = some ℓ) :
    ℓ = 1 ∧ ∃ c rest, s = c :: rest ∧ isPunctChar c = true := by
  cases s with
  | nil => simp [punctMatch] at h
  | cons c rest =>
    simp only [punctMatch] at h
    by_cases hc : isPunctChar c
    · rw [if_pos hc] at h
      injection h with h
      exact ⟨h.symm, c, rest, rfl, hc⟩
    · rw [if_neg hc] at h
      cases h

theorem wsMatch_shape {s : List Char} {ℓ : Nat} (h : wsMatch s = some ℓ) :
    1 ≤ ℓ ∧ ∃ c rest, s = c :: rest ∧ isSpace c = true := by
  unfold wsMatch at h
  by_cases hl : maxRun isSpace s = 0
  · simp [hl] at h
  · rw [if_neg hl] at h
    injection h with h
    obtain ⟨c, rest, hs, hc⟩ := maxRun_ne_zero hl
    exact ⟨by omega, c, rest, hs, hc⟩

theorem ellipsisMatch_shape {s : List Char} {ℓ : Nat}
    (h : ellipsisMatch s = some ℓ) : 1 ≤ ℓ := by
  unfold ellipsisMatch at h
  by_cases h1 : s.head? = some '…'
  · rw [if_pos h1] at h
    injection h with h
    omega
  · rw [if_neg h1] at h
    by_cases h3 : ("...".toList).isPrefixOf s
    · rw [if_pos h3] at h
      injection h with h
      omega
    · rw [if_neg h3] at h
      cases h

/-- Inversion for the priority-ordered master match: the winning alternative
actually matched. -/
theorem masterMatch_inv {s : List Char} {kind : TKind} {ℓ : Nat}
    (h : masterMatch s = some (kind, ℓ)) :
    (kind = TKind.URL ∧ urlMatch s = some ℓ) ∨
    (kind = TKind.EMAIL ∧ emailMatch s = some ℓ) ∨
    (kind = TKind.HANDLE ∧ handleMatch s = some ℓ) ∨
    (kind = TKind.ELLIPSIS ∧ ellipsisMatch s = some ℓ) ∨
    (kind = TKind.WORD ∧ wordMatch s = some ℓ) ∨
    (kind = TKind.PUNCT ∧ punctMatch s = some ℓ) ∨
    (kind = TKind.WS ∧ wsMatch s = some ℓ) := by
  unfold masterMatch at h
  cases h1 : urlMatch s with
  | some k =>
    rw [h1] at h
    have h' : some (TKind.URL, k) = some (kind, ℓ) := h
    simp only [Option.some.injEq, Prod.mk.injEq] at h'
    exact Or.inl ⟨h'.1.symm, congrArg some h'.2⟩
  | none =>
  rw [h1] at h
  cases h2 : emailMatch s with
  | some k =>
    rw [h2] at h
    have h' : some (TKind.EMAIL, k) = some (kind, ℓ) := h
    simp only [Option.some.injEq, Prod.mk.injEq] at h'
    exact Or.inr (Or.inl ⟨h'.1.symm, congrArg some h'.2⟩)
  | none =>
  rw [h2] at h
  cases h3 : handleMatch s with
  | some k =>
    rw [h3] at h
    have h' : some (TKind.HANDLE, k) = some (kind, ℓ) := h
    simp only [Option.some.injEq, Prod.mk.injEq] at h'
    exact Or.inr (Or.inr (Or.inl ⟨h'.1.symm, congrArg some h'.2⟩))
  | none =>
  rw [h3] at h
  cases h4 : ellipsisMatch s with
  | some k =>
    rw [h4] at h
    have h' : some (TKind.ELLIPSIS, k) = some (kind, ℓ) := h
    simp only [Option.some.injEq, Prod.mk.injEq] at h'
    exact Or.inr (Or.inr (Or.inr (Or.inl ⟨h'.1.symm, congrArg some h'.2⟩)))
  | none =>
  rw [h4] at h
  cases h5 : wordMatch s with
  | some k =>
    rw [h5] at h
    have h' : some (TKind.WORD, k) = some (kind, ℓ) := h
    simp only [Option.some.injEq, Prod.mk.injEq] at h'
    exact Or.inr (Or.inr (Or.inr (Or.inr (Or.inl ⟨h'.1.symm, congrArg some h'.2⟩))))
  | none =>
  rw [h5] at h
  cases h6 : punctMatch s with
  | some k =>
    rw [h6] at h
    have h' : some (TKind.PUNCT, k) = some (kind, ℓ) := h
    simp only [Option.some.injEq, Prod.mk.injEq] at h'
    exact Or.inr (Or.inr (Or.inr (Or.inr (Or.inr (Or.inl ⟨h'.1.symm, congrArg some h'.2⟩)))))
  | none =>
  rw [h6] at h
  cases h7 : wsMatch s with
  | some k =>
    rw [h7] at h
    have h' : some (TKind.WS, k) = some (kind, ℓ) := h
    simp only [Option.some.injEq, Prod.mk.injEq] at h'
    exact Or.inr (Or.inr (Or.inr (Or.inr (Or.inr (Or.inr ⟨h'.1.symm, congrArg some h'.2⟩)))))
  | none =>
    rw [h7] at h
    have h' : (none : Option (TKind × Nat)) = some (kind, ℓ) := h
    cases h'

/-- Every master-regex match consumes at least one character. -/
theorem masterMatch_pos {s : List Char} {kind : TKind} {ℓ : Nat}
    (h : masterMatch s = some (kind, ℓ)) : 1 ≤ ℓ := by
  rcases masterMatch_inv h with ⟨_, hx⟩ | ⟨_, hx⟩ | ⟨_, hx⟩ | ⟨_, hx⟩ |
    ⟨_, hx⟩ | ⟨_, hx⟩ | ⟨_, hx⟩
  · exact (urlMatch_shape hx).1
  · exact (emailMatch_shape hx).1
  · exact (handleMatch_shape hx).1
  · exact ellipsisMatch_shape hx
  · exact (wordMatch_shape hx).1
  · exact (punctMatch_shape hx).1.ge.trans (by omega)
  · exact (wsMatch_shape hx).1

/-- A non-ellipsis alternative never produces a token whose text is an
ellipsis ("…" or "..."). -/
theorem matched_not_ellipsis {s : List Char} {kind : TKind} {ℓ : Nat}
    (hm : masterMatch s = some (kind, ℓ)) (hkE : kind ≠ TKind.ELLIPSIS) :
    ¬ (s.take ℓ = ['…'] ∨ s.take ℓ = ['.', '.', '.']) := by
  intro hpiece
  rcases masterMatch_inv hm with ⟨hk, hx⟩ | ⟨hk, hx⟩ | ⟨hk, hx⟩ | ⟨hk, hx⟩ |
    ⟨hk, hx⟩ | ⟨hk, hx⟩ | ⟨hk, hx⟩
  · -- URL: first character is h or w
    obtain ⟨_, c, rest, hs, hcw⟩ := urlMatch_shape hx
    rcases hpiece with hp | hp
    · obtain ⟨rest2, hs2, _⟩ := take_eq_singleton hp
      rw [hs2] at hs
      injection hs with hc _
      rcases hcw with rfl | rfl <;> exact absurd hc (by decide)
    · obtain ⟨rest2, hs2, _⟩ := take_eq_three hp
      rw [hs2] at hs
      injection hs with hc _
      rcases hcw with rfl | rfl <;> exact absurd hc (by decide)
  · -- EMAIL: the match contains an @ before its end
    obtain ⟨_, i, hiℓ, hat⟩ := emailMatch_shape hx
    have hTake : (s.take ℓ).get? i = some '@' := by
      rw [List.get?_take hiℓ]
      exact hat
    rcases hpiece with hp | hp
    · rw [hp] at hTake
      cases i with
      | zero => exact absurd hTake (by decide)
      | succ i => simp [List.get?] at hTake
    · rw [hp] at hTake
      cases i with
      | zero => exact absurd hTake (by decide)
      | succ i =>
        cases i with
        | zero => exact absurd hTake (by decide)
        | succ i =>
          cases i with
          | zero => exact absurd hTake (by decide)
          | succ i => simp [List.get?] at hTake
  · -- HANDLE: first character is @ or #
    obtain ⟨_, c, rest, hs, hcw⟩ := handleMatch_shape hx
    rcases hpiece with hp | hp
    · obtain ⟨rest2, hs2, _⟩ := take_eq_singleton hp
      rw [hs2] at hs
      injection hs with hc _
      rcases hcw with rfl | rfl <;> exact absurd hc (by decide)
    · obtain ⟨rest2, hs2, _⟩ := take_eq_three hp
      rw [hs2] at hs
      injection hs with hc _
      rcases hcw with rfl | rfl <;> exact absurd hc (by decide)
  · exact hkE hk
  · -- WORD: first character is alphanumeric
    obtain ⟨_, c, rest, hs, hcw⟩ := wordMatch_shape hx
    rcases hpiece with hp | hp
    · obtain ⟨rest2, hs2, _⟩ := take_eq_singleton hp
      rw [hs2] at hs
      injection hs with hc _
      rw [← hc] at hcw
      exact absurd hcw (by decide)
    · obtain ⟨rest2, hs2, _⟩ := take_eq_three hp
      rw [hs2] at hs
      injection hs with hc _
      rw [← hc] at hcw
      exact absurd hcw (by decide)
  · -- PUNCT: single character and the ellipsis glyph is not in the class
    obtain ⟨hl1, c, rest, hs, hcw⟩ := punctMatch_shape hx
    rcases hpiece with hp | hp
    · obtain ⟨rest2, hs2, _⟩ := take_eq_singleton hp
      rw [hs2] at hs
      injection hs with hc _
      rw [← hc] at hcw
      exact absurd hcw (by decide)
    · obtain ⟨rest2, hs2, h3⟩ := take_eq_three hp
      omega
  · -- WS: first character is whitespace
    obtain ⟨_, c, rest, hs, hcw⟩ := wsMatch_shape hx
    rcases hpiece with hp | hp
    · obtain ⟨rest2, hs2, _⟩ := take_eq_singleton hp
      rw [hs2] at hs
      injection hs with hc _
      rw [← hc] at hcw
      exact absurd hcw (by decide)
    · obtain ⟨rest2, hs2, _⟩ := take_eq_three hp
      rw [hs2] at hs
      injection hs with hc _
      rw [← hc] at hcw
      exact absurd hcw (by decide)

theorem firstPassFlags_lt8 (kind : TKind) (piece : List Char) :
    firstPassFlags kind piece < 8 := by
  cases kind <;> simp [firstPassFlags] <;> (try split_ifs) <;> decide

theorem firstPassFlags_cap_word (piece : List Char)
    (h : (hasAlpha piece && headIsUpper piece) = true) :
    firstPassFlags TKind.WORD piece &&& TF_CAP ≠ 0 := by
  simp [firstPassFlags, h] <;> (try split_ifs) <;> decide

theorem firstPassFlags_cap_other (kind : TKind) (piece : List Char)
    (h : kind ≠ TKind.WORD) :
    firstPassFlags kind piece &&& TF_CAP = 0 := by
  cases kind
  case WORD => exact absurd rfl h
  all_goals simp [firstPassFlags] <;> (try split_ifs) <;> decide

/-- The invariant the first pass guarantees for every emitted (token, kind)
pair: flag bits above TF_NUM are clear, the capitalized flag is set exactly
by the word/fallback rule, and ellipsis-text tokens come from the ELLIPSIS
alternative. -/
def pairOK (t : Token) (k : TKind) : Prop :=
  t.flags < 8 ∧
  (k = TKind.WORD → (hasAlpha t.text && headIsUpper t.text) = true →
    t.flags &&& TF_CAP ≠ 0) ∧
  (k ≠ TKind.WORD → t.flags &&& TF_CAP = 0) ∧
  (isWeakTerm t.text = true → k = TKind.ELLIPSIS)

theorem scanGo_inv (chars : List Char) :
    ∀ (fuel p i idx : Nat) (toks : List Token) (kinds : List TKind),
      toks.length = kinds.length →
      (∀ j, j < toks.length →
        pairOK (toks.getD j default) (kinds.getD j TKind.WS)) →
      i ≤ p →
      (∀ q, i ≤ q → q < p → masterMatch (chars.drop q) = none) →
      chars.length - p < fuel →
      (scanGo chars fuel p i idx toks kinds).1.length =
        (scanGo chars fuel p i idx toks kinds).2.1.length ∧
      (∀ j, j < (scanGo chars fuel p i idx toks kinds).1.length →
        pairOK ((scanGo chars fuel p i idx toks kinds).1.getD j default)
               ((scanGo chars fuel p i idx toks kinds).2.1.getD j TKind.WS)) ∧
      (∀ q, (scanGo chars fuel p i idx toks kinds).2.2.1 ≤ q →
        q < chars.length → masterMatch (chars.drop q) = none) := by
  intro fuel
  induction fuel with
  | zero => intro p i idx toks kinds _ _ _ _ hf; omega
  | succ fuel ih =>
    intro p i idx toks kinds halign hOK hip hwin hf
    by_cases hp : p < chars.length
    · cases hm : masterMatch (chars.drop p) with
      | none =>
        simp only [scanGo, if_pos hp, hm]
        apply ih (p + 1) i idx toks kinds halign hOK (by omega)
        · intro q h1 h2
          by_cases hq : q < p
          · exact hwin q h1 hq
          · have : q = p := by omega
            rw [this]
            exact hm
        · omega
      | some r =>
        obtain ⟨kind, ℓ⟩ := r
        have hℓ : 1 ≤ ℓ := masterMatch_pos hm
        simp only [scanGo, if_pos hp, hm]
        by_cases hws : kind = TKind.WS
        · rw [if_pos hws]
          apply ih (p + ℓ) (p + ℓ) idx toks kinds halign hOK (le_refl _)
          · intro q h1 h2; omega
          · omega
        · rw [if_neg hws]
          apply ih (p + ℓ) (p + ℓ) (idx + 1) _ _ (by simp [halign])
          · intro j hj
            rw [List.length_append, List.length_cons, List.length_nil] at hj
            by_cases hjl : j < toks.length
            · rw [List.getD_append _ _ _ _ hjl,
                List.getD_append _ _ _ _ (by omega)]
              exact hOK j hjl
            · have hje : j = toks.length := by omega
              subst hje
              rw [List.getD_append_right _ _ _ _ (by omega),
                List.getD_append_right _ _ _ _ (by rw [← halign])]
              rw [← halign, Nat.sub_self]
              refine ⟨firstPassFlags_lt8 _ _, ?_, ?_, ?_⟩
              · intro hkw hcap
                subst hkw
                exact firstPassFlags_cap_word _ hcap
              · intro hkw
                exact firstPassFlags_cap_other _ _ hkw
              · intro hweak
                by_cases hkE : kind = TKind.ELLIPSIS
                · exact hkE
                · exfalso
                  apply matched_not_ellipsis hm hkE
                  simp only [isWeakTerm, Bool.or_eq_true, beq_iff_eq] at hweak
                  exact hweak
          · exact le_refl _
          · intro q h1 h2; omega
          · omega
    · simp only [scanGo, if_neg hp]
      refine ⟨halign, hOK, ?_⟩
      intro q h1 h2
      exact hwin q h1 (by omega)

/-- The fallback token of the first pass satisfies the pair invariant. -/
theorem fallback_pairOK (t : Token)
    (hne : t.text ≠ [])
    (hnoEll : isWeakTerm t.text = false)
    (hflags : t.flags =
      if t.text ≠ [] ∧ hasAlpha t.text = true ∧ headIsUpper t.text = true then
        (if hasDigit t.text = true then (0 : Nat) ||| TF_NUM else 0) ||| TF_CAP
      else if hasDigit t.text = true then (0 : Nat) ||| TF_NUM else 0) :
    pairOK t TKind.WORD := by
  refine ⟨?_, ?_, ?_, ?_⟩
  · rw [hflags]
    split_ifs <;> decide
  · intro _ hcap
    rw [hflags]
    rw [Bool.and_eq_true] at hcap
    rw [if_pos ⟨hne, hcap.1, hcap.2⟩]
    exact and_lor_self_ne _ (by decide)
  · intro hk
    exact absurd rfl hk
  · intro hw
    rw [hnoEll] at hw
    cases hw

theorem tokenize1_ok (chars : List Char) :
    (tokenize1 chars).1.length = (tokenize1 chars).2.length ∧
    ∀ j, j < (tokenize1 chars).1.length →
      pairOK ((tokenize1 chars).1.getD j default)
             ((tokenize1 chars).2.getD j TKind.WS) := by
  have h := scanGo_inv chars (chars.length + 1) 0 0 0 [] [] rfl
    (by intro j hj; simp at hj) (le_refl 0)
    (by intro q h1 h2; omega) (by omega)
  obtain ⟨hlen, hOK, hnm⟩ := h
  unfold tokenize1
  by_cases hi : (scanGo chars (chars.length + 1) 0 0 0 [] []).2.2.1 <
      chars.length
  · simp only [if_pos hi]
    have hpiecene :
        chars.drop ((scanGo chars (chars.length + 1) 0 0 0 [] []).2.2.1) ≠ [] := by
      intro hnil
      rw [List.drop_eq_nil_iff_le] at hnil
      omega
    have hnoEll :
        isWeakTerm (chars.drop
          ((scanGo chars (chars.length + 1) 0 0 0 [] []).2.2.1)) = false := by
      cases hvw : isWeakTerm (chars.drop
          ((scanGo chars (chars.length + 1) 0 0 0 [] []).2.2.1)) with
      | false => rfl
      | true =>
        exfalso
        have hnone := hnm _ (le_refl _) hi
        simp only [isWeakTerm, Bool.or_eq_true, beq_iff_eq] at hvw
        rcases hvw with hvw | hvw <;> rw [hvw] at hnone <;>
          exact absurd hnone (by decide)
    refine ⟨?_, ?_⟩
    · simp only [List.length_append, List.length_cons, List.length_nil, hlen]
    · intro j hj
      simp only [List.length_append, List.length_cons, List.length_nil] at hj
      by_cases hjl : j < (scanGo chars (chars.length + 1) 0 0 0 [] []).1.length
      · rw [List.getD_append _ _ _ _ hjl,
          List.getD_append _ _ _ _ (by omega)]
        exact hOK j hjl
      · have hje : j = (scanGo chars (chars.length + 1) 0 0 0 [] []).1.length := by
          omega
        rw [hje, List.getD_append_right _ _ _ _ (le_refl _), Nat.sub_self]
        rw [List.getD_append_right _ _ _ _ (by omega)]
        have hz : (scanGo chars (chars.length + 1) 0 0 0 [] []).1.length -
            (scanGo chars (chars.length + 1) 0 0 0 [] []).2.1.length = 0 := by
          omega
        rw [hz, List.getD_cons_zero, List.getD_cons_zero]
        exact fallback_pairOK _ hpiecene hnoEll rfl
  · simp only [if_neg hi]
    exact ⟨hlen, hOK⟩

/-! ## Theorems: capitalized flag (C8) -/

/-- C8 counterexample: the EMAIL alternative matches "Bob@x.co" as one
token whose first character is an uppercase letter and whose text contains
letters, yet its flags are 0 — the capitalized flag is not set, because the
first pass computes TF_CAP only for WORD (and fallback) tokens. -/
theorem tokenize_email_cap_counterexample :
    tokenize ("Bob@x.co".toList) = [⟨0, "Bob@x.co".toList, 0, 8, 0⟩] ∧
    headIsUpper ("Bob@x.co".toList) = true ∧
    hasAlpha ("Bob@x.co".toList) = true ∧
    ¬ (∀ t ∈ tokenize ("Bob@x.co".toList),
        (hasAlpha t.text && headIsUpper t.text) = true →
        t.flags &&& TF_CAP ≠ 0) := by
  refine ⟨by decide, by decide, by decide, by decide⟩

/-- C8 (amended): a token carries the capitalized flag according to the
alternative that produced it: every token of kind WORD (the word alternative
or the trailing fallback, which is recorded with kind WORD) whose text
contains a letter and starts with an uppercase letter carries TF_CAP, and
every token produced by any other alternative (URL, EMAIL, HANDLE, PUNCT,
ELLIPSIS) never carries TF_CAP, regardless of its text. -/
theorem tokenize_cap_amended (chars : List Char) :
    ∀ j, j < (tokenize chars).length →
      (((tokenize1 chars).2.getD j TKind.WS = TKind.WORD →
        (hasAlpha ((tokenize chars).getD j default).text &&
         headIsUpper ((tokenize chars).getD j default).text) = true →
        ((tokenize chars).getD j default).flags &&& TF_CAP ≠ 0) ∧
       ((tokenize1 chars).2.getD j TKind.WS ≠ TKind.WORD →
        ((tokenize chars).getD j default).flags &&& TF_CAP = 0)) := by
  intro j hj
  have htok : tokenize chars = sentLoop (tokenize1 chars).2
      (tokenize1 chars).1.length 0 (tokenize1 chars).1 := rfl
  have hlen2 : (tokenize chars).length = (tokenize1 chars).1.length := by
    rw [htok, sentLoop_length]
  have htext : ((tokenize chars).getD j default).text =
      ((tokenize1 chars).1.getD j default).text := by
    rw [htok, sentLoop_text]
  have hcap : ((tokenize chars).getD j default).flags &&& TF_CAP =
      ((tokenize1 chars).1.getD j default).flags &&& TF_CAP := by
    rw [htok]
    exact sentLoop_disjoint _ _ _ _ _ (by decide) (by decide)
  obtain ⟨halign, hOK⟩ := tokenize1_ok chars
  have hp := hOK j (by omega)
  constructor
  · intro hkw hcap2
    rw [hcap]
    rw [htext] at hcap2
    exact hp.2.1 hkw hcap2
  · intro hkw
    rw [hcap]
    exact hp.2.2.1 hkw

/-- Witness for C8 (amended) on "Hi Bob@x.co": the WORD token "Hi" gets
TF_CAP, the EMAIL token "Bob@x.co" does not. -/
theorem tokenize_cap_amended_witness :
    ((tokenize ("Hi Bob@x.co".toList)).getD 0 default).flags &&& TF_CAP ≠ 0 ∧
    ((tokenize ("Hi Bob@x.co".toList)).getD 1 default).flags &&& TF_CAP = 0 :=
  ⟨(tokenize_cap_amended ("Hi Bob@x.co".toList) 0 (by decide)).1
      (by decide) (by decide),
   (tokenize_cap_amended ("Hi Bob@x.co".toList) 1 (by decide)).2 (by decide)⟩

/-! ## Theorems: sentence-end flag pass (C6) -/

/-- C6: in the second pass over the built token sequence, (a) every
punctuation-alternative token (kind PUNCT or ELLIPSIS) whose text is exactly
".", "?" or "!" receives the strong-end flag; (b) each token following such
a strong terminator receives the weak-end flag as long as every intervening
token's text belongs to the fixed closer set (transitive propagation); and
(c) every token whose text is an ellipsis ("…" or "...") receives the
weak-end flag and never the strong-end flag. -/
theorem tokenize_sentence_flags (chars : List Char) :
    (∀ k, k < (tokenize chars).length →
      ((tokenize1 chars).2.getD k TKind.WS = TKind.PUNCT ∨
       (tokenize1 chars).2.getD k TKind.WS = TKind.ELLIPSIS) →
      isStrongTerm ((tokenize chars).getD k default).text = true →
      ((tokenize chars).getD k default).flags &&& TF_SENT_END_STRONG ≠ 0) ∧
    (∀ k j, k < (tokenize chars).length → j < (tokenize chars).length →
      k < j →
      ((tokenize1 chars).2.getD k TKind.WS = TKind.PUNCT ∨
       (tokenize1 chars).2.getD k TKind.WS = TKind.ELLIPSIS) →
      isStrongTerm ((tokenize chars).getD k default).text = true →
      (∀ m, k < m → m ≤ j →
        isCloser ((tokenize chars).getD m default).text = true) →
      ((tokenize chars).getD j default).flags &&& TF_SENT_END_WEAK ≠ 0) ∧
    (∀ k, k < (tokenize chars).length →
      isWeakTerm ((tokenize chars).getD k default).text = true →
      ((tokenize chars).getD k default).flags &&& TF_SENT_END_WEAK ≠ 0 ∧
      ((tokenize chars).getD k default).flags &&& TF_SENT_END_STRONG = 0) := by
  have htok : tokenize chars = sentLoop (tokenize1 chars).2
      (tokenize1 chars).1.length 0 (tokenize1 chars).1 := rfl
  have hlen2 : (tokenize chars).length = (tokenize1 chars).1.length := by
    rw [htok, sentLoop_length]
  have htext : ∀ m, ((tokenize chars).getD m default).text =
      ((tokenize1 chars).1.getD m default).text := by
    intro m
    rw [htok, sentLoop_text]
  obtain ⟨halign, hOK⟩ := tokenize1_ok chars
  refine ⟨?_, ?_, ?_⟩
  · intro k hk hK hS
    rw [htok]
    apply sentLoop_strong_sets _ _ 0 _ k (by omega) (by omega) (by omega) hK
    rw [← htext]
    exact hS
  · intro k j hk hj hkj hK hS hcl
    rw [htok]
    apply sentLoop_closers _ _ 0 _ k j (by omega) (by omega) hkj (by omega)
      (by omega) hK
    · rw [← htext]
      exact hS
    · intro m hm1 hm2
      rw [← htext]
      exact hcl m hm1 hm2
  · intro k hk hW
    have hWt : isWeakTerm ((tokenize1 chars).1.getD k default).text = true := by
      rw [← htext]
      exact hW
    have hp := hOK k (by omega)
    have hK : (tokenize1 chars).2.getD k TKind.WS = TKind.ELLIPSIS :=
      hp.2.2.2 hWt
    constructor
    · rw [htok]
      apply sentLoop_weakterm _ _ 0 _ k (by omega) (by omega) (by omega)
        (Or.inr hK) hWt
    · rw [htok]
      rw [sentLoop_strong_pres _ _ _ _ k
        (by rw [weakTerm_not_strong hWt])]
      exact flags_lt8_strong_zero hp.1

def closersWitC6 : List Char := ("Hi.) Bye".toList)

def ellipsisWitC6 : List Char := ("So... It".toList)

/-- Witness for C6: in "Hi.) Bye" the "." token gets the strong-end flag and
the following closer ")" gets the weak-end flag; in "So... It" the ellipsis
token gets the weak-end flag and not the strong-end flag. -/
theorem tokenize_sentence_flags_witness :
    ((tokenize closersWitC6).getD 1 default).flags &&& TF_SENT_END_STRONG ≠ 0 ∧
    ((tokenize closersWitC6).getD 2 default).flags &&& TF_SENT_END_WEAK ≠ 0 ∧
    ((tokenize ellipsisWitC6).getD 1 default).flags &&& TF_SENT_END_WEAK ≠ 0 ∧
    ((tokenize ellipsisWitC6).getD 1 default).flags &&& TF_SENT_END_STRONG = 0 := by
  refine ⟨?_, ?_, ?_, ?_⟩
  · exact (tokenize_sentence_flags closersWitC6).1 1 (by decide) (by decide)
      (by decide)
  · exact (tokenize_sentence_flags closersWitC6).2.1 1 2 (by decide)
      (by decide) (by decide) (by decide) (by decide)
      (fun m h1 h2 => by
        have hm : m = 2 := by omega
        rw [hm]
        decide)
  · exact ((tokenize_sentence_flags ellipsisWitC6).2.2 1 (by decide)
      (by decide)).1
  · exact ((tokenize_sentence_flags ellipsisWitC6).2.2 1 (by decide)
      (by decide)).2

end Pablo
